import Mathlib

set_option maxRecDepth 8000
set_option synthInstance.maxSize 512

/-!
Verification of the integration-mapper pipeline (src/src/integration_mapper).

The Python sources are shallowly embedded: dictionaries become
insertion-ordered association lists (matching Python dict semantics),
Python str.replace and friends are re-implemented over character lists,
and the AST visitors become recursive functions over a small Python AST
(the sublanguage exercised by the specification: modules, class and
function definitions, imports, attribute chains and argument-free calls).
-/

/- ===================== string helpers ===================== -/

/-- Python s.replace(a, b) for one-character pattern and replacement,
as used in mapper.py for path.replace("/", ".") and func.replace(".", "_"). -/
def charReplace (a b : Char) (s : String) : String :=
  String.mk (s.data.map (fun c => if c = a then b else c))

/-- Worker for Python s.replace(pat, "") (delete every non-overlapping
occurrence, scanning left to right).  The counter argument skips the
remaining characters of a matched occurrence. -/
def delOccGo (pat : List Char) : List Char → Nat → List Char
  | [], _ => []
  | _ :: rest, k + 1 => delOccGo pat rest k
  | c :: rest, 0 =>
    if pat.isPrefixOf (c :: rest) then delOccGo pat rest (pat.length - 1)
    else c :: delOccGo pat rest 0

/-- Python s.replace(pat, "") for a non-empty pattern. -/
def pyDelReplace (pat : String) (s : String) : String :=
  String.mk (delOccGo pat.data s.data 0)

/-- Does pat occur as a contiguous sublist? -/
def hasOccur (pat : List Char) : List Char → Bool
  | [] => pat.isEmpty
  | c :: rest => pat.isPrefixOf (c :: rest) || hasOccur pat rest

/-- Python ".".join(xs). -/
def joinDot : List String → String
  | [] => ""
  | [s] => s
  | s :: rest => s ++ "." ++ joinDot rest

/-- Code-point lexicographic strict order on character lists
(the order Python uses to compare strings). -/
def charListLt : List Char → List Char → Bool
  | [], [] => false
  | [], _ :: _ => true
  | _ :: _, [] => false
  | x :: xs, y :: ys =>
    if x.val < y.val then true
    else if y.val < x.val then false
    else charListLt xs ys

def strLt (s t : String) : Bool := charListLt s.data t.data

/-- Python tuple(sorted([a, b])). -/
def sortedPair (a b : String) : String × String :=
  if strLt b a then (b, a) else (a, b)

/-- Leading dotted segment: Python s.split(".")[0] if s else "". -/
def topSegment (s : String) : String :=
  if s = "" then "" else String.mk (s.data.takeWhile (fun c => c ≠ '.'))

/-- Does the string contain a dot? -/
def hasDot (s : String) : Bool := s.data.contains '.'

/-- Module FQN from a root-relative path
(HierarchyBuilder.visit_Module and IntegrationExtractor.visit_Module):
self.current_module.replace("/", ".").replace(".py", ""). -/
def moduleFqnOfPath (path : String) : String :=
  pyDelReplace ".py" (charReplace '/' '.' path)

/- ===================== association-list helpers =====================

Python dicts keep insertion order; they are embedded as association
lists where a fresh key is appended at the end and an existing key is
updated in place. -/

def alookup {K α : Type} [BEq K] : List (K × α) → K → Option α
  | [], _ => none
  | p :: rest, k => if p.1 == k then some p.2 else alookup rest k

def aupd {K α : Type} [BEq K] : List (K × α) → K → α → List (K × α)
  | [], k, v => [(k, v)]
  | p :: rest, k, v => if p.1 == k then (k, v) :: rest else p :: aupd rest k v

/-- One step of building a Python counting dict: counts[k] += 1
with a defaultdict(int). -/
def bump {K : Type} [BEq K] : List (K × Nat) → K → List (K × Nat)
  | [], k => [(k, 1)]
  | p :: rest, k => if p.1 == k then (p.1, p.2 + 1) :: rest else p :: bump rest k

/-- Counting dict over a list of keys, in first-encounter key order. -/
def tally {K : Type} [BEq K] (l : List K) : List (K × Nat) :=
  l.foldl bump []

/-- defaultdict(list): append v under key k. -/
def appendMulti : List (String × List String) → String → String → List (String × List String)
  | [], k, v => [(k, [v])]
  | p :: rest, k, v =>
    if p.1 == k then (p.1, p.2 ++ [v]) :: rest else p :: appendMulti rest k v

/- ===================== sorting by count =====================

Python sorted(items, key=lambda x: x[1], reverse=True) is a stable sort
by descending count; List.insertionSort with the relation below is
stable in the same sense (earlier elements stay before equal-count later
ones). -/

def cntOrd {α : Type} (a b : α × Nat) : Prop := b.2 ≤ a.2

instance {α : Type} : DecidableRel (@cntOrd α) := fun _ _ => Nat.decLe _ _

instance {α : Type} : IsTotal (α × Nat) cntOrd := ⟨fun a b => Nat.le_total b.2 a.2⟩

instance {α : Type} : IsTrans (α × Nat) cntOrd := ⟨fun _ _ _ h1 h2 => Nat.le_trans h2 h1⟩

/- ===================== data model: edges ===================== -/

/-- One positional or keyword call argument (visit_Call in mapper.py). -/
structure CallArg where
  kind : String
  argName : Option String
  value : String
deriving DecidableEq, Repr

/-- An integration edge.  The Python edges are dicts with
slightly different key sets per kind; optional fields model the keys
that are present only for some kinds (target is absent on inheritance
edges, which carry a targets list instead). -/
structure Edge where
  etype : String
  source : String
  target : Option String
  targetFqn : Option String
  targets : List String
  items : List String
  accessMode : Option String
  args : List CallArg
  line : Nat
  integrationType : String
deriving DecidableEq, Repr

/-- Base record with the always-present fields; kind-specific fields
default to the absent state. -/
def Edge.base (etype source : String) (line : Nat) (integrationType : String) : Edge :=
  { etype := etype, source := source, target := none, targetFqn := none,
    targets := [], items := [], accessMode := none, args := [],
    line := line, integrationType := integrationType }

/-- Python edge.get("target", ""). -/
def Edge.targetD (e : Edge) : String := e.target.getD ""

/- ===================== Phase 3: FlowAnalyzer ===================== -/

structure Crossroad where
  id : String
  components : List String
  integrationCount : Nat
  criticality : String
deriving DecidableEq, Repr

structure CriticalPath where
  id : String
  entryPoint : String
  callCount : Nat
  complexity : String
deriving DecidableEq, Repr

/-- The unordered pair of top-level segments counted by
FlowAnalyzer._detect_crossroads for one edge, if the edge crosses a
module boundary. -/
def crossKey (e : Edge) : Option (String × String) :=
  let sourceModule := topSegment e.source
  let targetModule := topSegment e.targetD
  if sourceModule != "" && targetModule != "" && sourceModule != targetModule then
    some (sortedPair sourceModule targetModule)
  else none

/-- module_interactions dict of FlowAnalyzer._detect_crossroads. -/
def moduleInteractions (edges : List Edge) : List ((String × String) × Nat) :=
  tally (edges.filterMap crossKey)

def mkCrossroad (p : (String × String) × Nat) : Crossroad :=
  { id := p.1.1 ++ "_" ++ p.1.2 ++ "_junction",
    components := [p.1.1, p.1.2],
    integrationCount := p.2,
    criticality := if 10 < p.2 then "high" else "medium" }

/-- FlowAnalyzer._detect_crossroads: sort interactions by descending
count (stable), keep counts of at least 3. -/
def detectCrossroads (edges : List Edge) : List Crossroad :=
  ((List.insertionSort cntOrd (moduleInteractions edges)).filter (fun p => 3 ≤ p.2)).map
    mkCrossroad

def mkCriticalPath (p : String × Nat) : CriticalPath :=
  { id := "path_" ++ charReplace '.' '_' p.1,
    entryPoint := p.1,
    callCount := p.2,
    complexity := if 5 < p.2 then "high" else "medium" }

/-- All recorded caller entries of the call graph, in order. -/
def allCallers (callGraph : List (String × List String)) : List String :=
  (callGraph.map (·.2)).flatten

/-- FlowAnalyzer._identify_critical_paths: count, per caller, the call
entries made by that caller; sort descending (stable), take the top 5,
keep counts of at least 2. -/
def identifyCriticalPaths (callGraph : List (String × List String)) : List CriticalPath :=
  let callCounts := tally (allCallers callGraph)
  (((List.insertionSort cntOrd callCounts).take 5).filter (fun p => 2 ≤ p.2)).map
    mkCriticalPath

/-- IntegrationMapper.phase3_analyze_flows rebuilds the call graph from
the merged edge list. -/
def buildCallGraph (edges : List Edge) : List (String × List String) :=
  edges.foldl
    (fun g e => if e.etype == "call" then appendMulti g e.targetD e.source else g) []

/- ===================== ComponentIndexer ===================== -/

structure ComponentIndexer where
  fqnToId : List (String × Nat)
  idToFqn : List (Nat × String)
  nextId : Nat
deriving DecidableEq, Repr

def ComponentIndexer.start : ComponentIndexer := ⟨[], [], 1⟩

/-- Python: fqn in indexer. -/
def ComponentIndexer.containsFqn (ix : ComponentIndexer) (fqn : String) : Bool :=
  ix.fqnToId.any (fun p => p.1 == fqn)

/-- ComponentIndexer.get_or_create_id. -/
def ComponentIndexer.getOrCreateId (ix : ComponentIndexer) (fqn : String) :
    Nat × ComponentIndexer :=
  match alookup ix.fqnToId fqn with
  | some i => (i, ix)
  | none =>
    (ix.nextId,
     { fqnToId := ix.fqnToId ++ [(fqn, ix.nextId)],
       idToFqn := ix.idToFqn ++ [(ix.nextId, fqn)],
       nextId := ix.nextId + 1 })

/-- ComponentIndexer.get_id (KeyError modeled as none; the formatter
only calls it under a containsFqn guard). -/
def ComponentIndexer.getId (ix : ComponentIndexer) (fqn : String) : Option Nat :=
  alookup ix.fqnToId fqn

/-- ComponentIndexer.to_json_index.  JSON stringification of the integer
keys is transparent and omitted. -/
def ComponentIndexer.toJsonIndex (ix : ComponentIndexer) : List (Nat × String) :=
  ix.idToFqn

/-- One lookup step: query the indexer and record the returned ID. -/
def lookStep (acc : List Nat × ComponentIndexer) (q : String) : List Nat × ComponentIndexer :=
  let res := acc.2.getOrCreateId q
  (acc.1 ++ [res.1], res.2)

/-- A sequence of lookups against one indexer, collecting the returned
IDs (the observable behavior quantified over in the specification). -/
def runLookups (qs : List String) : List Nat × ComponentIndexer :=
  qs.foldl lookStep ([], ComponentIndexer.start)

/- spec-side helpers for the indexer law -/

/-- The distinct elements in first-encounter order. -/
def dedupFirst : List String → List String
  | [] => []
  | q :: rest => q :: (dedupFirst rest).filter (fun x => x != q)

/-- Index of the first occurrence (length of the list if absent). -/
def posIn (q : String) : List String → Nat
  | [] => 0
  | x :: rest => if x == q then 0 else posIn q rest + 1

/- ===================== symbol-table entries ===================== -/

/-- A symbol-table entry (HierarchyBuilder.register_node plus the
kind-specific fields added by visit_ClassDef / visit_FunctionDef).
Optional fields model dict keys that only some kinds carry; accessing
the methods field of an entry that lacks it is the KeyError of
mapper.py line 141.  The calls / reads_attributes / writes_attributes
function fields and the imports list are always empty in the source and
are omitted. -/
structure SymEntry where
  kind : String
  fqn : String
  name : String
  lineRange : Nat × Nat
  path : String
  docstring : Option String
  children : List (String × String)
  bases : Option (List String)
  methods : Option (List (String × String))
  attrsMap : Option (List (String × String))
  parameters : Option (List String)
deriving DecidableEq, Repr

/- ===================== abbreviation code tables ===================== -/

/-- Modelled from the spec: abbreviate_type_code is imported by
compact_formatter.py but defined nowhere under src (the module as
shipped raises ImportError).  The spec describes a fixed bidirectional
code table, and decoder.py holds the expansion side (TYPE_EXPANSION and
EDGE_TYPE_EXPANSION), so the missing function is modelled as the
inverse of those tables, matching the docstring examples in
compact_formatter.py (cls, mod, imp, cal, attr, inh). -/
def abbreviateTypeCode (t : String) : String :=
  match t with
  | "module" => "mod"
  | "package" => "pkg"
  | "class" => "cls"
  | "function" => "fn"
  | "method" => "mth"
  | "variable" => "var"
  | "import" => "imp"
  | "call" => "cal"
  | "attribute" => "attr"
  | "inheritance" => "inh"
  | other => other

/-- CompactDecoder.TYPE_EXPANSION (default: return the code unchanged). -/
def expandTypeCode (code : String) : String :=
  match code with
  | "mod" => "module"
  | "pkg" => "package"
  | "cls" => "class"
  | "fn" => "function"
  | "mth" => "method"
  | "var" => "variable"
  | "imp" => "import"
  | other => other

/-- CompactDecoder.EDGE_TYPE_EXPANSION (default: return the code unchanged). -/
def expandEdgeType (code : String) : String :=
  match code with
  | "imp" => "import"
  | "cal" => "call"
  | "attr" => "attribute"
  | "inh" => "inheritance"
  | "imp_mod" => "import_module"
  | "imp_frm" => "import_from"
  | "fn_cal" => "function_call"
  | "attr_acc" => "attribute_access"
  | other => other

/-- Python s.split(sep) for a one-character separator, on char lists. -/
def splitOnCharGo (sep : Char) : List Char → List (List Char)
  | [] => [[]]
  | c :: rest =>
    match splitOnCharGo sep rest with
    | [] => [[]]
    | g :: gs => if c = sep then [] :: g :: gs else (c :: g) :: gs

/-- Python fqn.split("."). -/
def dotSegments (s : String) : List String :=
  (splitOnCharGo '.' s.data).map String.mk

/- ===================== CompactFormatter ===================== -/

structure CompactComponent where
  i : Nat
  n : String
  t : String
  f : String
  p : Option Nat
  l : Option (Nat × Nat)
  d : Option String
  c : Option (List Nat)
  m : Option (List Nat)
deriving DecidableEq, Repr

/-- A compact edge array [src_id, tgt_id, type_code, line] with the
optional trailing external-target text (present exactly when
tgt_id = -1).  The encoder never emits arrays of fewer than four
elements, so the decoder guard for malformed arrays is vacuous here. -/
structure CompactEdge where
  srcId : Int
  tgtId : Int
  typeCode : String
  line : Nat
  extTarget : Option String
deriving DecidableEq, Repr

structure Metadata where
  totalIntegrationPoints : Nat
  totalCrossroads : Nat
  analysisTimestamp : String
  filesAnalyzed : Nat
  componentsFound : Nat
deriving DecidableEq, Repr

/-- Compact output.  The metadata key abbreviation (tip, crs, ts, fa,
cf) and its expansion by the decoder are a transparent renaming of the
same five fields, so one structure serves both sides.  The crd and cp
keys are present only when non-empty in the Python dict and default to
the empty list on decode, which nets out to the identity modelled
here. -/
structure CompactOutput where
  idx : List (Nat × String)
  md : Metadata
  cmp : List CompactComponent
  edg : List CompactEdge
  crd : List Crossroad
  cp : List CriticalPath
deriving DecidableEq, Repr

/-- CompactFormatter.format_components, threading the indexer. -/
def formatComponents (ix : ComponentIndexer) (table : List (String × SymEntry)) :
    List CompactComponent × ComponentIndexer :=
  table.foldl
    (fun acc p =>
      let fqn := p.1
      let comp := p.2
      let r1 := acc.2.getOrCreateId fqn
      let pres : Option Nat × ComponentIndexer :=
        if hasDot fqn then
          let parentFqn := joinDot (dotSegments fqn).dropLast
          if table.any (fun q => q.1 == parentFqn) then
            let r2 := r1.2.getOrCreateId parentFqn
            (some r2.1, r2.2)
          else (none, r1.2)
        else (none, r1.2)
      let cres : List Nat × ComponentIndexer :=
        comp.children.foldl
          (fun a ch =>
            if table.any (fun q => q.1 == ch.2) then
              let r := a.2.getOrCreateId ch.2
              (a.1 ++ [r.1], r.2)
            else a)
          ([], pres.2)
      let mres : List Nat × ComponentIndexer :=
        (comp.methods.getD []).foldl
          (fun a mth =>
            if table.any (fun q => q.1 == mth.2) then
              let r := a.2.getOrCreateId mth.2
              (a.1 ++ [r.1], r.2)
            else a)
          ([], cres.2)
      let cc : CompactComponent :=
        { i := r1.1, n := comp.name, t := abbreviateTypeCode comp.kind, f := fqn,
          p := pres.1,
          l := some comp.lineRange,
          d := match comp.docstring with
               | some ds => if ds == "" then none else some ds
               | none => none,
          c := if cres.1.isEmpty then none else some cres.1,
          m := if mres.1.isEmpty then none else some mres.1 }
      (acc.1 ++ [cc], mres.2))
    ([], ix)

/-- CompactFormatter.format_edges, threading the indexer. -/
def formatEdges (ix : ComponentIndexer) (edges : List Edge) :
    List CompactEdge × ComponentIndexer :=
  edges.foldl
    (fun acc e =>
      let sourceFqn := e.source
      let targetFqn := e.targetD
      let sres : Int × ComponentIndexer :=
        if sourceFqn != "" then
          let r := acc.2.getOrCreateId sourceFqn
          (Int.ofNat r.1, r.2)
        else (-1, acc.2)
      let tgt : Int × Option String :=
        if sres.2.containsFqn targetFqn then
          (Int.ofNat ((sres.2.getId targetFqn).getD 0), none)
        else (-1, some targetFqn)
      let ce : CompactEdge :=
        { srcId := sres.1, tgtId := tgt.1, typeCode := abbreviateTypeCode e.etype,
          line := e.line, extTarget := tgt.2 }
      (acc.1 ++ [ce], sres.2))
    ([], ix)

/-- CompactFormatter.build_output. -/
def compactBuildOutput (table : List (String × SymEntry)) (edges : List Edge)
    (md : Metadata) (crossroads : List Crossroad) (criticalPaths : List CriticalPath) :
    CompactOutput :=
  let r1 := formatComponents ComponentIndexer.start table
  let r2 := formatEdges r1.2 edges
  { idx := r2.2.toJsonIndex, md := md, cmp := r1.1, edg := r2.1,
    crd := crossroads, cp := criticalPaths }

/- ===================== VerboseFormatter ===================== -/

structure Statistics where
  totalComponents : Nat
  totalIntegrationPoints : Nat
  totalEdges : Nat
deriving DecidableEq, Repr

/-- Verbose output.  The codebase_tree denormalization of the symbol
table is not embedded; the fields below carry the logical content the
round-trip law speaks about (metadata, edges, crossroads, critical
paths, statistics), and integration_edges are the input edges verbatim
(VerboseFormatter.format_edges is the identity). -/
structure VerboseOutput where
  metadata : Metadata
  integrationEdges : List Edge
  crossroads : List Crossroad
  criticalPaths : List CriticalPath
  statistics : Statistics
deriving DecidableEq, Repr

/-- VerboseFormatter.build_output. -/
def verboseBuildOutput (table : List (String × SymEntry)) (edges : List Edge)
    (md : Metadata) (crossroads : List Crossroad) (criticalPaths : List CriticalPath) :
    VerboseOutput :=
  { metadata := md, integrationEdges := edges, crossroads := crossroads,
    criticalPaths := criticalPaths,
    statistics := { totalComponents := table.length,
                    totalIntegrationPoints := edges.length,
                    totalEdges := edges.length } }

/- ===================== CompactDecoder ===================== -/

/-- Resolve an ID against the FQN index (Python
fqn_index.get(str(i), unknown marker)). -/
def lookupIdx (idx : List (Nat × String)) (i : Int) : String :=
  match idx.find? (fun p => (Int.ofNat p.1) == i) with
  | some p => p.2
  | none => "<unknown:" ++ toString i ++ ">"

/-- An edge as rebuilt by CompactDecoder._decode_edges: only these five
keys exist on a decoded edge. -/
structure DecodedEdge where
  etype : String
  source : String
  target : String
  line : Nat
  integrationType : String
deriving DecidableEq, Repr

/-- A component as rebuilt by CompactDecoder._decode_components.
The children dict is keyed by the child FQN (not the local name) and
the methods dict by the last FQN segment. -/
structure DecodedComponent where
  fqn : String
  name : String
  kind : String
  lineRange : Option (Nat × Nat)
  docstring : Option String
  children : Option (List (String × String))
  methods : Option (List (String × String))
deriving DecidableEq, Repr

def decodeComponents (idx : List (Nat × String)) (cmps : List CompactComponent) :
    List (String × DecodedComponent) :=
  cmps.map
    (fun comp =>
      let fqn := lookupIdx idx (Int.ofNat comp.i)
      (fqn,
       { fqn := fqn, name := comp.n, kind := expandTypeCode comp.t,
         lineRange := comp.l, docstring := comp.d,
         children := comp.c.map (fun ids => ids.map
           (fun cid => let cf := lookupIdx idx (Int.ofNat cid); (cf, cf))),
         methods := comp.m.map (fun ids => ids.map
           (fun mid =>
             let mf := lookupIdx idx (Int.ofNat mid)
             ((dotSegments mf).getLastD "", mf))) }))

def decodeEdges (idx : List (Nat × String)) (edges : List CompactEdge) :
    List DecodedEdge :=
  edges.map
    (fun e =>
      let sourceFqn := lookupIdx idx e.srcId
      let targetFqn :=
        if e.tgtId == -1 then
          match e.extTarget with
          | some t => t
          | none => lookupIdx idx e.tgtId
        else lookupIdx idx e.tgtId
      { etype := expandEdgeType e.typeCode, source := sourceFqn, target := targetFqn,
        line := e.line, integrationType := expandEdgeType e.typeCode })

/-- Decoded output.  The _rebuild_tree step only re-nests the decoded
components by FQN segments; the flat component list carries the same
content and is kept flat here. -/
structure DecodedOutput where
  metadata : Metadata
  components : List (String × DecodedComponent)
  crossroads : List Crossroad
  criticalPaths : List CriticalPath
  integrationEdges : List DecodedEdge
  statistics : Statistics
deriving DecidableEq, Repr

/-- CompactDecoder.decode. -/
def decodeCompact (cm : CompactOutput) : DecodedOutput :=
  let components := decodeComponents cm.idx cm.cmp
  let edges := decodeEdges cm.idx cm.edg
  { metadata := cm.md, components := components, crossroads := cm.crd,
    criticalPaths := cm.cp, integrationEdges := edges,
    statistics := { totalComponents := components.length,
                    totalIntegrationPoints := edges.length,
                    totalEdges := edges.length } }

/- ===================== Python AST (modelled sublanguage) =====================

The embedded AST covers the constructs the two visitors act on: module,
class and function definitions, plain and from-imports, attribute
chains, names, constants, and calls.  Calls carry no arguments (the
args list of an extracted call edge is then empty, matching
ast.unparse over an empty argument list); async defs, assignments and
other statement forms visited only generically are omitted. -/

inductive PyExpr where
  | nameE (id : String) (line : Nat)
  | attrE (value : PyExpr) (attrName : String) (store : Bool) (line : Nat)
  | callE (func : PyExpr) (line : Nat)
  | constE (line : Nat)

inductive PyStmt where
  | funcDef (name : String) (lineno endLineno : Nat) (params : List String)
      (doc : Option String) (body : List PyStmt)
  | classDef (name : String) (lineno endLineno : Nat) (bases : List PyExpr)
      (doc : Option String) (body : List PyStmt)
  | importS (names : List (String × Option String)) (line : Nat)
  | importFromS (moduleName : Option String) (names : List (String × Option String))
      (line : Nat)
  | exprS (e : PyExpr)

/-- One parsed file: the module docstring and the statement list. -/
structure PyModule where
  doc : Option String
  body : List PyStmt

/- ===================== Phase 2: IntegrationExtractor ===================== -/

/-- _extract_attribute_fqn: collect the attribute names walking outward
to inward, reverse, and include the base only when it is a plain name. -/
def flattenParts : PyExpr → List String
  | .attrE v a _ _ => flattenParts v ++ [a]
  | .nameE id _ => [id]
  | _ => []

def extractAttributeFqn (e : PyExpr) : String := joinDot (flattenParts e)

/-- _resolve_call_target. -/
def resolveCallTarget (aliasMap : List (String × String)) : PyExpr → String
  | .nameE id _ => (alookup aliasMap id).getD id
  | .attrE v a s l => extractAttributeFqn (.attrE v a s l)
  | _ => "<dynamic_call>"

structure ExtState where
  scopeStack : List String
  aliasMap : List (String × String)
  edges : List Edge
  callGraph : List (String × List String)
deriving DecidableEq, Repr

/-- IntegrationExtractor.get_current_fqn. -/
def ExtState.currentFqn (st : ExtState) : String :=
  if st.scopeStack.isEmpty then "" else joinDot st.scopeStack

/-- Expression traversal of the extractor: visit_Call and
visit_Attribute record an edge and then generically visit the
sub-expression; names and constants have no visitor. -/
def visitExprE (st : ExtState) : PyExpr → ExtState
  | .nameE _ _ => st
  | .constE _ => st
  | .attrE v a store line =>
    let fqn := extractAttributeFqn (.attrE v a store line)
    let edge := { Edge.base "attribute" st.currentFqn line "attribute_access" with
                  target := some fqn,
                  accessMode := some (if store then "write" else "read") }
    visitExprE { st with edges := st.edges ++ [edge] } v
  | .callE f line =>
    let target := resolveCallTarget st.aliasMap f
    let edge := { Edge.base "call" st.currentFqn line "function_call" with
                  target := some target, targetFqn := some target }
    visitExprE
      { st with edges := st.edges ++ [edge],
                callGraph := appendMulti st.callGraph target st.currentFqn } f

/-- visit_Import: one edge and one alias binding per imported name. -/
def visitImportE (st : ExtState) (names : List (String × Option String)) (line : Nat) :
    ExtState :=
  names.foldl
    (fun st p =>
      let moduleName := p.1
      let asName := p.2.getD p.1
      { st with
        aliasMap := aupd st.aliasMap asName moduleName,
        edges := st.edges ++
          [{ Edge.base "import" st.currentFqn line "import_module" with
             target := some moduleName, items := [asName] }] })
    st

/-- visit_ImportFrom: alias bindings for every name, then a single edge. -/
def visitImportFromE (st : ExtState) (moduleName : Option String)
    (names : List (String × Option String)) (line : Nat) : ExtState :=
  match moduleName with
  | none => st
  | some m =>
    let items := names.map (·.1)
    let st := names.foldl
      (fun st p => { st with aliasMap := aupd st.aliasMap (p.2.getD p.1) (m ++ "." ++ p.1) })
      st
    { st with edges := st.edges ++
        [{ Edge.base "import" st.currentFqn line "import_from" with
           target := some m, items := items }] }

/-- The inheritance-edge part of the extractor visit_ClassDef (before
the scope push).  The class FQN concatenation is unconditional in the
source (an f-string), unlike register_node in phase 1. -/
def classHeaderE (st : ExtState) (name : String) (bases : List PyExpr) (line : Nat) :
    ExtState :=
  let classFqn := st.currentFqn ++ "." ++ name
  let baseNames := bases.filterMap
    (fun b =>
      match b with
      | .nameE id _ => some ((alookup st.aliasMap id).getD id)
      | .attrE v a s l => some (extractAttributeFqn (.attrE v a s l))
      | _ => none)
  if baseNames.isEmpty then st
  else { st with edges := st.edges ++
          [{ Edge.base "inheritance" classFqn line "inheritance" with
             targets := baseNames }] }

/-- Statement traversal of the extractor.  Function definitions have no
visitor in the source, so generic_visit descends into their body with
an unchanged scope stack; class definitions push and pop their name.
The Nat argument is recursion fuel (none is returned only when it runs
out, which has no Python counterpart). -/
def visitStmtsE : Nat → ExtState → List PyStmt → Option ExtState
  | _, st, [] => some st
  | 0, _, _ :: _ => none
  | fuel + 1, st, s :: rest =>
    match s with
    | .importS names line => visitStmtsE fuel (visitImportE st names line) rest
    | .importFromS m names line => visitStmtsE fuel (visitImportFromE st m names line) rest
    | .exprS e => visitStmtsE fuel (visitExprE st e) rest
    | .funcDef _ _ _ _ _ body =>
      match visitStmtsE fuel st body with
      | none => none
      | some st2 => visitStmtsE fuel st2 rest
    | .classDef name l1 _ bases _ body =>
      let st := classHeaderE st name bases l1
      match visitStmtsE fuel { st with scopeStack := st.scopeStack ++ [name] } body with
      | none => none
      | some st2 => visitStmtsE fuel { st2 with scopeStack := st2.scopeStack.dropLast } rest

/-- IntegrationExtractor.visit on a whole file (visit_Module sets the
stack to the module FQN and clears the alias map).  The symbol table
passed to the extractor in the source is stored but never read, so it
does not appear in the state. -/
def runExtractor (fuel : Nat) (path : String) (m : PyModule) : Option ExtState :=
  visitStmtsE fuel
    { scopeStack := [moduleFqnOfPath path], aliasMap := [], edges := [], callGraph := [] }
    m.body

/- ===================== Phase 1: HierarchyBuilder ===================== -/

structure BState where
  symbolTable : List (String × SymEntry)
  scopeStack : List String
  currentModule : String
deriving DecidableEq, Repr

/-- HierarchyBuilder.get_current_fqn. -/
def BState.currentFqn (st : BState) : String := joinDot st.scopeStack

/-- scope_stack[-1] (only read under a guard that the stack has at
least two entries). -/
def BState.stackTop (st : BState) : String := st.scopeStack.getLastD ""

/-- register_node: build the entry and store it under its FQN. -/
def registerEntry (table : List (String × SymEntry)) (nodeType name parentFqn : String)
    (lineRange : Nat × Nat) (doc : Option String) (path : String) :
    String × List (String × SymEntry) :=
  let fqn := if parentFqn == "" then name else parentFqn ++ "." ++ name
  let e : SymEntry :=
    { kind := nodeType, fqn := fqn, name := name, lineRange := lineRange, path := path,
      docstring := doc, children := [], bases := none, methods := none, attrsMap := none,
      parameters := none }
  (fqn, aupd table fqn e)

/-- Result of a phase-1 traversal: the KeyError case is the failed
methods-dict access of mapper.py line 141; fuelOut is the modelling
fuel running out and has no Python counterpart. -/
inductive BRes where
  | ok (st : BState)
  | keyErr
  | fuelOut
deriving DecidableEq, Repr

/-- The symbol table of a successful traversal. -/
def BRes.tableOf : BRes → Option (List (String × SymEntry))
  | .ok st => some st.symbolTable
  | _ => none

/-- The registration branch of visit_FunctionDef after register_node:
record the definition as a method of scope_stack[-1] or as a child of
the enclosing scope. -/
def funcBranch (st : BState) (funcName funcFqn parentFqn : String) : BRes :=
  match alookup st.symbolTable parentFqn with
  | none => .ok st
  | some pe =>
    if 2 ≤ st.scopeStack.length ∧ st.stackTop ≠ st.currentModule then
      match alookup st.symbolTable st.stackTop with
      | none => .ok st
      | some ce =>
        match ce.methods with
        | none => .keyErr
        | some ms =>
          let ce2 := { ce with methods := some (aupd ms funcName funcFqn) }
          .ok { st with symbolTable := aupd st.symbolTable st.stackTop ce2 }
    else
      let pe2 := { pe with children := aupd pe.children funcName funcFqn }
      .ok { st with symbolTable := aupd st.symbolTable parentFqn pe2 }

/-- Everything visit_FunctionDef does before generic_visit. -/
def visitFuncHead (st : BState) (name : String) (l1 l2 : Nat) (params : List String)
    (doc : Option String) : BRes :=
  let parentFqn := st.currentFqn
  let res := registerEntry st.symbolTable "function" name parentFqn (l1, l2) doc
    st.currentModule
  let funcFqn := res.1
  let table := match alookup res.2 funcFqn with
    | some e => aupd res.2 funcFqn { e with parameters := some params }
    | none => res.2
  funcBranch { st with symbolTable := table } name funcFqn parentFqn

/-- Everything visit_ClassDef does before the scope push. -/
def visitClassHead (st : BState) (name : String) (l1 l2 : Nat) (bases : List PyExpr)
    (doc : Option String) : BState :=
  let parentFqn := st.currentFqn
  let res := registerEntry st.symbolTable "class" name parentFqn (l1, l2) doc
    st.currentModule
  let classFqn := res.1
  let baseNames := bases.filterMap
    (fun b =>
      match b with
      | .nameE id _ => some id
      | .attrE v a s l => some (extractAttributeFqn (.attrE v a s l))
      | _ => none)
  let table := match alookup res.2 classFqn with
    | some e => aupd res.2 classFqn
        { e with bases := some baseNames, methods := some [], attrsMap := some [] }
    | none => res.2
  let table := match alookup table parentFqn with
    | none => table
    | some pe => aupd table parentFqn { pe with children := aupd pe.children name classFqn }
  { st with symbolTable := table }

/-- Statement traversal of the builder.  Imports and bare expressions
have no phase-1 visitor and no registrable children; function bodies
are descended into with an unchanged scope stack, class bodies with the
class name pushed. -/
def visitStmtsB : Nat → BState → List PyStmt → BRes
  | _, st, [] => .ok st
  | 0, _, _ :: _ => .fuelOut
  | fuel + 1, st, s :: rest =>
    match s with
    | .importS _ _ => visitStmtsB fuel st rest
    | .importFromS _ _ _ => visitStmtsB fuel st rest
    | .exprS _ => visitStmtsB fuel st rest
    | .funcDef name l1 l2 params doc body =>
      match visitFuncHead st name l1 l2 params doc with
      | .ok st2 =>
        match visitStmtsB fuel st2 body with
        | .ok st3 => visitStmtsB fuel st3 rest
        | other => other
      | other => other
    | .classDef name l1 l2 bases doc body =>
      let st2 := visitClassHead st name l1 l2 bases doc
      match visitStmtsB fuel { st2 with scopeStack := st2.scopeStack ++ [name] } body with
      | .ok st3 => visitStmtsB fuel { st3 with scopeStack := st3.scopeStack.dropLast } rest
      | other => other

/-- HierarchyBuilder.visit on a whole file: visit_Module registers the
module entry (synthetic line range [1,1]) and seeds the scope stack.
The nested self.tree fragment is not embedded (the formatters rebuild
their trees from the symbol table alone). -/
def runBuilder (fuel : Nat) (path : String) (m : PyModule) : BRes :=
  let moduleFqn := moduleFqnOfPath path
  let res := registerEntry [] "module" moduleFqn "" (1, 1) m.doc path
  visitStmtsB fuel
    { symbolTable := res.2, scopeStack := [moduleFqn], currentModule := path } m.body

/- ===================== Orchestrator phases ===================== -/

/-- One discovered file: its root-relative path and the result of
ast.parse (none models a SyntaxError). -/
structure FileInput where
  path : String
  parsed : Option PyModule

/-- Python dict.update merge used when folding per-file tables into the
global one. -/
def mergeTables (a b : List (String × SymEntry)) : List (String × SymEntry) :=
  b.foldl (fun t p => aupd t p.1 p.2) a

structure Phase1Out where
  symbolTable : List (String × SymEntry)
  diagnostics : List String
deriving DecidableEq, Repr

/-- Does the file parse and traverse in phase 1? -/
def phase1Ok (fuel : Nat) (f : FileInput) : Bool :=
  match f.parsed with
  | none => false
  | some m =>
    match runBuilder fuel f.path m with
    | .ok _ => true
    | _ => false

/-- IntegrationMapper.phase1_build_hierarchy: per-file try/except; a
failing file is skipped with a diagnostic and merges nothing. -/
def phase1 (fuel : Nat) (files : List FileInput) : Phase1Out :=
  files.foldl
    (fun acc f =>
      match f.parsed with
      | none =>
        { acc with diagnostics := acc.diagnostics ++ ["Error processing " ++ f.path] }
      | some m =>
        match runBuilder fuel f.path m with
        | .ok bs => { acc with symbolTable := mergeTables acc.symbolTable bs.symbolTable }
        | _ =>
          { acc with diagnostics := acc.diagnostics ++ ["Error processing " ++ f.path] })
    { symbolTable := [], diagnostics := [] }

structure Phase2Out where
  edges : List Edge
  diagnostics : List String
deriving DecidableEq, Repr

/-- Does the file parse (the extractor itself cannot raise)? -/
def phase2Ok (fuel : Nat) (f : FileInput) : Bool :=
  match f.parsed with
  | none => false
  | some m => (runExtractor fuel f.path m).isSome

/-- IntegrationMapper.phase2_extract_integration: per-file try/except
with the same isolation; note that phase 2 re-parses every file
independently of phase-1 outcomes. -/
def phase2 (fuel : Nat) (files : List FileInput) : Phase2Out :=
  files.foldl
    (fun acc f =>
      match f.parsed with
      | none =>
        { acc with diagnostics :=
            acc.diagnostics ++ ["Error extracting integration from " ++ f.path] }
      | some m =>
        match runExtractor fuel f.path m with
        | some es => { acc with edges := acc.edges ++ es.edges }
        | none =>
          { acc with diagnostics :=
              acc.diagnostics ++ ["Error extracting integration from " ++ f.path] })
    { edges := [], diagnostics := [] }


/- ===================== spec-side helper definitions =====================

Definitions below are written from the words of the specification (not
from the source); they are compared against the source-derived
definitions above in the claim theorems. -/

/-- The pattern ".py" as a character list. -/
def patPy : List Char := ['.', 'p', 'y']

/-- The module-FQN computation as the specification words it: replace
directory separators, then strip a trailing ".py" suffix (and only a
trailing one). -/
def claimModuleFqn (path : String) : String :=
  let dotted := charReplace '/' '.' path
  if patPy.isSuffixOf dotted.data then String.mk (dotted.data.take (dotted.data.length - 3))
  else dotted

/-- Spec-side: the list positioned 1, 2, 3, ... from n. -/
def numberedFrom (n : Nat) : List String → List (String × Nat)
  | [] => []
  | x :: rest => (x, n) :: numberedFrom (n + 1) rest

/-- The canonical indexer state after the distinct FQNs in seen were
looked up in order. -/
def canonIx (seen : List String) : ComponentIndexer :=
  { fqnToId := numberedFrom 1 seen,
    idToFqn := (numberedFrom 1 seen).map (fun p => (p.2, p.1)),
    nextId := seen.length + 1 }

/-- The elements of qs not yet seen, in first-encounter order. -/
def newOnes (seen qs : List String) : List String :=
  (dedupFirst qs).filter (fun x => !(seen.contains x))

/-- Spec-side: the class-name chains of a statement list, descending
through class bodies (one name per class) and transparently through
function bodies; these are the only scopes the extractor stacks. -/
inductive ChainIn : List PyStmt → List String → Prop
  | nil (ss : List PyStmt) : ChainIn ss []
  | here {ss : List PyStmt} {n : String} {l1 l2 : Nat} {bases : List PyExpr}
      {d : Option String} {body : List PyStmt} {cs : List String} :
      PyStmt.classDef n l1 l2 bases d body ∈ ss → ChainIn body cs → ChainIn ss (n :: cs)
  | underFunc {ss : List PyStmt} {n : String} {l1 l2 : Nat} {ps : List String}
      {d : Option String} {body : List PyStmt} {cs : List String} :
      PyStmt.funcDef n l1 l2 ps d body ∈ ss → ChainIn body cs → ChainIn ss cs

/-- No dot in the string (Python identifiers satisfy this). -/
def noDot (s : String) : Bool := !(s.data.contains '.')

/-- Well-formedness delivered by ast.parse: definition names are
non-empty dot-free identifiers, recursively. -/
inductive WfStmt : PyStmt → Prop
  | funcDef {n : String} {l1 l2 : Nat} {ps : List String} {d : Option String}
      {body : List PyStmt} :
      n ≠ "" → noDot n = true → (∀ s ∈ body, WfStmt s) →
      WfStmt (.funcDef n l1 l2 ps d body)
  | classDef {n : String} {l1 l2 : Nat} {bases : List PyExpr} {d : Option String}
      {body : List PyStmt} :
      n ≠ "" → noDot n = true → (∀ s ∈ body, WfStmt s) →
      WfStmt (.classDef n l1 l2 bases d body)
  | importS {names : List (String × Option String)} {line : Nat} :
      WfStmt (.importS names line)
  | importFromS {m : Option String} {names : List (String × Option String)} {line : Nat} :
      WfStmt (.importFromS m names line)
  | exprS {e : PyExpr} : WfStmt (.exprS e)

/- ===================== concrete fixtures ===================== -/

/-- The end-to-end scenario file b of the specification: it imports a
and defines a function g whose body calls a.f(). -/
def fileB : PyModule :=
  { doc := none,
    body := [ .importS [("a", none)] 1,
              .funcDef "g" 2 3 [] none
                [ .exprS (.callE (.attrE (.nameE "a" 3) "f" false 3) 3) ] ] }

/-- m.py: class C with method f holding a nested function h. -/
def fileM : PyModule :=
  { doc := none,
    body := [ .classDef "C" 1 4 [] none
                [ .funcDef "f" 2 4 [] none
                    [ .funcDef "h" 3 4 [] none [] ] ] ] }

/-- m.py: module-level function g holding a nested function h. -/
def fileM2 : PyModule :=
  { doc := none,
    body := [ .funcDef "g" 1 3 [] none [ .funcDef "h" 2 3 [] none [] ] ] }

/-- A file named ".py" (whose module FQN is empty): a top-level class C,
then a class B holding a nested class C with a function f. -/
def fileDotPy : PyModule :=
  { doc := none,
    body := [ .classDef "C" 1 1 [] none [],
              .classDef "B" 2 4 [] none
                [ .classDef "C" 3 4 [] none
                    [ .funcDef "f" 4 4 [] none [] ] ] ] }

/-- C.py: class C with a method f whose body calls a.b().  The builder
hits the KeyError of mapper.py line 141 on this file (the bare class
name C equals the module FQN, whose entry has no methods dict). -/
def fileCpy : PyModule :=
  { doc := none,
    body := [ .classDef "C" 1 3 [] none
                [ .funcDef "f" 2 3 [] none
                    [ .exprS (.callE (.attrE (.nameE "a" 3) "b" false 3) 3) ] ] ] }

/-- The one-file batch holding C.py. -/
def batchC : List FileInput := [ { path := "C.py", parsed := some fileCpy } ]

/-- A cross-module call edge from src to tgt. -/
def xEdge (src tgt : String) (n : Nat) : Edge :=
  { Edge.base "call" src n "function_call" with
    target := some tgt }

/-- The single crossroad of the three-edge example. -/
def crAB : Crossroad :=
  { id := "a_b_junction", components := ["a", "b"], integrationCount := 3,
    criticality := "medium" }

/-- A one-module symbol table for the round-trip fixture. -/
def exTable : List (String × SymEntry) :=
  [ ("m", { kind := "module", fqn := "m", name := "m", lineRange := (1, 1), path := "m.py",
            docstring := none, children := [], bases := none, methods := none,
            attrsMap := none, parameters := none }) ]

/-- A call edge with one positional argument, as phase 2 emits it. -/
def exCallEdge : Edge :=
  { Edge.base "call" "m" 3 "function_call" with
    target := some "a.f",
    targetFqn := some "a.f",
    args := [{ kind := "positional", argName := none, value := "x" }] }

/-- An import edge with its items list. -/
def exImpEdge : Edge :=
  { Edge.base "import" "m" 1 "import_module" with
    target := some "a",
    items := ["a"] }

def exMd : Metadata :=
  { totalIntegrationPoints := 2, totalCrossroads := 0, analysisTimestamp := "t",
    filesAnalyzed := 1, componentsFound := 1 }

/-- The call graph with callee f called twice by caller g. -/
def exCG : List (String × List String) := [("f", ["g", "g"])]

/-- Expected builder table of fileM, projected to children and methods. -/
def expectedM : List (String × List (String × String) × Option (List (String × String))) :=
  [ ("m", [("C", "m.C")], none),
    ("m.C", [], some []),
    ("m.C.f", [], none),
    ("m.C.h", [], none) ]

/-- Expected builder table of fileDotPy, projected to kind and methods. -/
def expectedDot : List (String × String × Option (List (String × String))) :=
  [ ("", "module", none),
    ("C", "class", some [("f", ".B.C.f")]),
    ("B", "class", some []),
    (".B.C", "class", some []),
    (".B.C.f", "function", none) ]
/-- A one-statement module used to instantiate the C1 theorem. -/
def fileTiny : PyModule := { doc := none, body := [.exprS (.callE (.nameE "f" 1) 1)] }

/-- The single call edge the extractor emits for fileTiny in b.py. -/
def tinyCallEdge : Edge :=
  { Edge.base "call" "b" 1 "function_call" with
    target := some "f",
    targetFqn := some "f" }

/-- The extractor state after fileTiny. -/
def tinyState : ExtState :=
  { scopeStack := ["b"], aliasMap := [], edges := [tinyCallEdge],
    callGraph := [("f", ["b"])] }

/-- A bare module symbol entry used to instantiate the C5 theorem. -/
def bentry5 : SymEntry :=
  { kind := "module", fqn := "m", name := "m", lineRange := (1, 1), path := "m.py",
    docstring := none, children := [], bases := none, methods := none,
    attrsMap := none, parameters := none }

/-- A builder state at module level used to instantiate the C5 theorem. -/
def bst5 : BState :=
  { symbolTable := [("m", bentry5)], scopeStack := ["m"], currentModule := "m.py" }

/- ===================== lemmas: association lists ===================== -/

theorem alookup_aupd_self {K α : Type} [BEq K] [LawfulBEq K]
    (l : List (K × α)) (k : K) (v : α) : alookup (aupd l k v) k = some v := by
  induction l with
  | nil => simp [aupd, alookup]
  | cons p rest ih =>
    by_cases hp : p.1 = k
    · simp [aupd, alookup, hp]
    · simp [aupd, alookup, hp, ih]

theorem alookup_aupd_ne {K α : Type} [BEq K] [LawfulBEq K]
    (l : List (K × α)) (k k' : K) (v : α) (h : k' ≠ k) :
    alookup (aupd l k v) k' = alookup l k' := by
  have hkk : (k == k') = false := beq_eq_false_iff_ne.mpr (fun he => h he.symm)
  induction l with
  | nil => simp [aupd, alookup, hkk]
  | cons p rest ih =>
    by_cases hp : p.1 = k
    · have hp' : (p.1 == k') = false := by
        rw [hp]
        exact hkk
      simp [aupd, alookup, hp, hkk, hp']
    · by_cases hp' : p.1 = k'
      · simp [aupd, alookup, beq_iff_eq, hp, hp', h]
      · simp [aupd, alookup, beq_iff_eq, hp, hp', ih, h]

theorem mem_of_alookup {K α : Type} [BEq K] [LawfulBEq K]
    {l : List (K × α)} {k : K} {v : α} (h : alookup l k = some v) : (k, v) ∈ l := by
  induction l with
  | nil => simp [alookup] at h
  | cons p rest ih =>
    by_cases hp : p.1 = k
    · simp [alookup, hp] at h
      have hpv : p = (k, v) := by
        cases p
        simp_all
      rw [← hpv]
      exact List.mem_cons_self _ _
    · simp [alookup, hp] at h
      exact List.mem_cons_of_mem _ (ih h)

theorem mem_aupd {K α : Type} [BEq K] [LawfulBEq K]
    {l : List (K × α)} {k : K} {v : α} {q : K × α} (h : q ∈ aupd l k v) :
    q = (k, v) ∨ q ∈ l := by
  induction l with
  | nil => simpa [aupd] using h
  | cons p rest ih =>
    by_cases hp : p.1 = k
    · simp [aupd, hp] at h
      rcases h with h | h
      · exact Or.inl h
      · exact Or.inr (List.mem_cons_of_mem _ h)
    · simp only [aupd, beq_iff_eq, hp, if_neg, not_false_iff, List.mem_cons] at h
      rcases h with h | h
      · exact Or.inr (by simp [h])
      · rcases ih h with h2 | h2
        · exact Or.inl h2
        · exact Or.inr (List.mem_cons_of_mem _ h2)

/- ===================== lemmas: tally ===================== -/

theorem bump_alookup_self {K : Type} [BEq K] [LawfulBEq K] (l : List (K × Nat)) (k : K) :
    alookup (bump l k) k = some ((alookup l k).getD 0 + 1) := by
  induction l with
  | nil => simp [bump, alookup]
  | cons p rest ih =>
    by_cases hp : p.1 = k
    · simp [bump, alookup, hp]
    · simp [bump, alookup, hp, ih]

theorem bump_alookup_ne {K : Type} [BEq K] [LawfulBEq K]
    (l : List (K × Nat)) (k k' : K) (h : k' ≠ k) :
    alookup (bump l k) k' = alookup l k' := by
  have hkk : (k == k') = false := beq_eq_false_iff_ne.mpr (fun he => h he.symm)
  induction l with
  | nil => simp [bump, alookup, hkk]
  | cons p rest ih =>
    by_cases hp : p.1 = k
    · have hp' : (p.1 == k') = false := by
        rw [hp]
        exact hkk
      simp [bump, alookup, hp, hp', hkk]
    · by_cases hp' : p.1 = k'
      · simp [bump, alookup, beq_iff_eq, hp, hp', h]
      · simp [bump, alookup, beq_iff_eq, hp, hp', ih, h]

theorem foldl_bump_alookup {K : Type} [BEq K] [LawfulBEq K]
    (l : List K) (acc : List (K × Nat)) (k : K) :
    (alookup (l.foldl bump acc) k).getD 0 = (alookup acc k).getD 0 + l.count k := by
  induction l generalizing acc with
  | nil => simp
  | cons x rest ih =>
    rw [List.foldl_cons, ih (bump acc x)]
    by_cases hx : x = k
    · subst hx
      rw [bump_alookup_self]
      simp [List.count_cons]
      omega
    · rw [bump_alookup_ne acc x k (fun h2 => hx h2.symm)]
      simp [List.count_cons, hx]

/-- Key of an entry of bump: an old key or the bumped key. -/
theorem bump_key_mem {K : Type} [BEq K] [LawfulBEq K]
    {l : List (K × Nat)} {k : K} {q : K × Nat} (h : q ∈ bump l k) :
    (∃ w, (q.1, w) ∈ l) ∨ q.1 = k := by
  induction l with
  | nil =>
    simp only [bump, List.mem_singleton] at h
    right
    rw [h]
  | cons p rest ih =>
    by_cases hp : p.1 = k
    · simp only [bump, beq_iff_eq, hp, if_pos, List.mem_cons] at h
      rcases h with h | h
      · right
        rw [h]
      · exact Or.inl ⟨q.2, List.mem_cons_of_mem _ (by simp [h])⟩
    · simp only [bump, beq_iff_eq, hp, if_neg, not_false_iff, List.mem_cons] at h
      rcases h with h | h
      · exact Or.inl ⟨q.2, by simp [h]⟩
      · rcases ih h with ⟨w, hw⟩ | h2
        · exact Or.inl ⟨w, List.mem_cons_of_mem _ hw⟩
        · exact Or.inr h2

/-- bump preserves pairwise-distinct keys. -/
theorem bump_keys_pairwise {K : Type} [BEq K] [LawfulBEq K]
    {l : List (K × Nat)} (hl : l.Pairwise (fun p q => p.1 ≠ q.1)) (k : K) :
    (bump l k).Pairwise (fun p q => p.1 ≠ q.1) := by
  induction l with
  | nil => simp [bump]
  | cons p rest ih =>
    rcases List.pairwise_cons.mp hl with ⟨hhead, htail⟩
    by_cases hp : p.1 = k
    · simp only [bump, beq_iff_eq, hp, if_pos]
      exact List.pairwise_cons.mpr ⟨fun q hq => fun he => hhead q hq (hp.trans he), htail⟩
    · simp only [bump, beq_iff_eq, hp, if_neg, not_false_iff]
      refine List.pairwise_cons.mpr ⟨fun q hq => ?_, ih htail⟩
      rcases bump_key_mem hq with ⟨w, hw⟩ | h2
      · exact fun he => (hhead (q.1, w) hw) he
      · exact fun he => hp (he.trans h2)

/-- With pairwise-distinct keys, membership determines the lookup. -/
theorem alookup_of_mem_pairwise {K α : Type} [BEq K] [LawfulBEq K]
    {l : List (K × α)} (hl : l.Pairwise (fun p q => p.1 ≠ q.1))
    {k : K} {v : α} (h : (k, v) ∈ l) : alookup l k = some v := by
  induction l with
  | nil => simp at h
  | cons p rest ih =>
    rcases List.pairwise_cons.mp hl with ⟨hhead, htail⟩
    rcases List.mem_cons.mp h with h | h
    · simp [alookup, ← h]
    · have hne : p.1 ≠ k := fun he => (hhead _ h) he
      simp [alookup, hne, ih htail h]

theorem foldl_bump_pairwise {K : Type} [BEq K] [LawfulBEq K]
    (l : List K) (acc : List (K × Nat)) (hacc : acc.Pairwise (fun p q => p.1 ≠ q.1)) :
    (l.foldl bump acc).Pairwise (fun p q => p.1 ≠ q.1) := by
  induction l generalizing acc with
  | nil => simpa
  | cons x rest ih => exact ih (bump acc x) (bump_keys_pairwise hacc x)

theorem tally_pairwise {K : Type} [BEq K] [LawfulBEq K] (l : List K) :
    (tally l).Pairwise (fun p q => p.1 ≠ q.1) :=
  foldl_bump_pairwise l [] (by simp)

/-- Every tally entry records the exact multiplicity. -/
theorem tally_count {K : Type} [BEq K] [LawfulBEq K]
    {l : List K} {k : K} {v : Nat} (h : (k, v) ∈ tally l) : v = l.count k := by
  have h1 : alookup (tally l) k = some v := alookup_of_mem_pairwise (tally_pairwise l) h
  have h2 := foldl_bump_alookup l [] k
  simp only [tally] at h1
  rw [h1] at h2
  simpa [alookup] using h2

/-- Keys of a bump fold come from the accumulator or the list. -/
theorem foldl_bump_key_mem {K : Type} [BEq K] [LawfulBEq K]
    (l : List K) (acc : List (K × Nat)) {q : K × Nat} (h : q ∈ l.foldl bump acc) :
    (∃ w, (q.1, w) ∈ acc) ∨ q.1 ∈ l := by
  induction l generalizing acc with
  | nil =>
    left
    exact ⟨q.2, by simpa using h⟩
  | cons x rest ih =>
    rw [List.foldl_cons] at h
    rcases ih (bump acc x) h with ⟨w, hw⟩ | h2
    · rcases bump_key_mem hw with h3 | h3
      · exact Or.inl h3
      · exact Or.inr (List.mem_cons.mpr (Or.inl h3))
    · exact Or.inr (List.mem_cons_of_mem _ h2)

/-- Every tally key occurs in the list. -/
theorem tally_key_mem {K : Type} [BEq K] [LawfulBEq K]
    {l : List K} {q : K × Nat} (h : q ∈ tally l) : q.1 ∈ l := by
  rcases foldl_bump_key_mem l [] h with ⟨w, hw⟩ | h2
  · simp at hw
  · exact h2

/-- Every list element has its tally entry. -/
theorem mem_tally {K : Type} [BEq K] [LawfulBEq K]
    {l : List K} {k : K} (h : k ∈ l) : (k, l.count k) ∈ tally l := by
  have h2 := foldl_bump_alookup l [] k
  simp only [alookup, Option.getD_none, Nat.zero_add] at h2
  have hpos : 0 < l.count k := List.count_pos_iff.mpr h
  cases hl : alookup (l.foldl bump []) k with
  | none =>
    rw [hl] at h2
    simp at h2
    omega
  | some v =>
    rw [hl] at h2
    simp at h2
    have h3 : (k, v) ∈ tally l := mem_of_alookup (by simpa [tally] using hl)
    rwa [h2] at h3

/- ===================== lemmas: sorting ===================== -/

/-- Inserting an element that precedes a whole sorted list puts it at
the head. -/
theorem orderedInsert_of_forall {α : Type} (r : α → α → Prop) [DecidableRel r]
    (a : α) (l : List α) (h : ∀ x ∈ l, r a x) : l.orderedInsert r a = a :: l := by
  cases l with
  | nil => rfl
  | cons b t => simp [List.orderedInsert, h b (List.mem_cons_self b t)]

/-- Filtering commutes with ordered insertion into a sorted list. -/
theorem filter_orderedInsert {α : Type} (r : α → α → Prop) [DecidableRel r]
    [IsTrans α r] [IsTotal α r] (p : α → Bool) (a : α) :
    ∀ l : List α, l.Sorted r →
      (l.orderedInsert r a).filter p =
        if p a then (l.filter p).orderedInsert r a else l.filter p := by
  intro l
  induction l with
  | nil =>
    intro _
    cases hpa : p a <;> simp [List.orderedInsert, List.filter, hpa]
  | cons b t ih =>
    intro hs
    by_cases hab : r a b
    · rw [List.orderedInsert, if_pos hab]
      cases hpa : p a with
      | false => simp [List.filter, hpa]
      | true =>
        have hall : ∀ x ∈ (b :: t).filter p, r a x := by
          intro x hx
          rcases List.mem_filter.mp hx with ⟨hx2, _⟩
          rcases List.mem_cons.mp hx2 with h2 | h2
          · exact h2 ▸ hab
          · exact Trans.trans hab (List.rel_of_sorted_cons hs x h2)
        rw [orderedInsert_of_forall r a _ hall]
        simp [List.filter, hpa]
    · rw [List.orderedInsert, if_neg hab]
      have hst : t.Sorted r := hs.of_cons
      cases hpb : p b with
      | false =>
        simp only [List.filter, hpb]
        exact ih hst
      | true =>
        simp only [List.filter, hpb]
        rw [ih hst]
        cases hpa : p a with
        | false => simp
        | true =>
          simp only [if_pos]
          rw [List.orderedInsert, if_neg hab]

/-- Filtering commutes with insertion sort. -/
theorem insertionSort_filter {α : Type} (r : α → α → Prop) [DecidableRel r]
    [IsTrans α r] [IsTotal α r] (p : α → Bool) (l : List α) :
    (List.insertionSort r l).filter p = List.insertionSort r (l.filter p) := by
  induction l with
  | nil => rfl
  | cons a t ih =>
    rw [List.insertionSort,
      filter_orderedInsert r p a _ (List.sorted_insertionSort r t), ih]
    cases hpa : p a with
    | false => simp [List.filter, hpa]
    | true => simp [List.filter, hpa, List.insertionSort]

/- ===================== lemmas: filterMap counting ===================== -/

theorem count_filterMap {α K : Type} [BEq K] [LawfulBEq K]
    (f : α → Option K) (k : K) (l : List α) :
    (l.filterMap f).count k = (l.filter (fun e => f e == some k)).length := by
  induction l with
  | nil => rfl
  | cons x rest ih =>
    cases hx : f x with
    | none =>
      have hne : (f x == some k) = false := by simp [hx]
      simp [List.filterMap_cons, hx, List.filter, hne, ih]
    | some b =>
      by_cases hb : b = k
      · have heq : (f x == some k) = true := by simp [hx, hb]
        simp [List.filterMap_cons, hx, List.filter, heq, List.count_cons, hb, ih]
      · have hne : (f x == some k) = false := by simp [hx, hb]
        have hbk : (b == k) = false := beq_eq_false_iff_ne.mpr hb
        simp [List.filterMap_cons, hx, List.filter, hne, List.count_cons, hbk, ih]

/- ===================== lemmas: FlowAnalyzer ===================== -/

theorem icp_length_le (cg : List (String × List String)) :
    (identifyCriticalPaths cg).length ≤ 5 := by
  unfold identifyCriticalPaths
  rw [List.length_map]
  have h1 := List.length_filter_le (fun p => decide (2 ≤ p.2))
    ((List.insertionSort cntOrd (tally (allCallers cg))).take 5)
  have h2 : ((List.insertionSort cntOrd (tally (allCallers cg))).take 5).length ≤ 5 := by
    rw [List.length_take]
    exact Nat.min_le_left _ _
  exact Nat.le_trans h1 h2

theorem icp_mem {cg : List (String × List String)} {p : CriticalPath}
    (hp : p ∈ identifyCriticalPaths cg) :
    ∃ q, q ∈ tally (allCallers cg) ∧ 2 ≤ q.2 ∧ p = mkCriticalPath q := by
  unfold identifyCriticalPaths at hp
  rcases List.mem_map.mp hp with ⟨q, hq, hpq⟩
  rcases List.mem_filter.mp hq with ⟨hq2, hq3⟩
  refine ⟨q, ?_, by simpa using hq3, hpq.symm⟩
  have hq4 : q ∈ List.insertionSort cntOrd (tally (allCallers cg)) :=
    List.take_subset 5 _ hq2
  exact (List.perm_insertionSort cntOrd (tally (allCallers cg))).subset hq4

theorem icp_pairwise (cg : List (String × List String)) :
    List.Pairwise (fun a b => b.callCount ≤ a.callCount) (identifyCriticalPaths cg) := by
  unfold identifyCriticalPaths
  rw [List.pairwise_map]
  have h1 : (List.insertionSort cntOrd (tally (allCallers cg))).Pairwise cntOrd :=
    List.sorted_insertionSort cntOrd (tally (allCallers cg))
  have h2 := h1.sublist (List.take_sublist 5 _)
  have hsub :
      List.Sublist
        (((List.insertionSort cntOrd (tally (allCallers cg))).take 5).filter
          (fun p => decide (2 ≤ p.2)))
        ((List.insertionSort cntOrd (tally (allCallers cg))).take 5) :=
    List.filter_sublist _
  have h3 := h2.sublist hsub
  exact h3.imp (fun h => h)

theorem dc_mem {edges : List Edge} {c : Crossroad} :
    c ∈ detectCrossroads edges ↔
      ∃ q, q ∈ moduleInteractions edges ∧ 3 ≤ q.2 ∧ c = mkCrossroad q := by
  unfold detectCrossroads
  constructor
  · intro hc
    rcases List.mem_map.mp hc with ⟨q, hq, hcq⟩
    rcases List.mem_filter.mp hq with ⟨hq2, hq3⟩
    exact ⟨q, (List.perm_insertionSort cntOrd _).subset hq2, by simpa using hq3, hcq.symm⟩
  · rintro ⟨q, hq, hq3, rfl⟩
    refine List.mem_map.mpr ⟨q, List.mem_filter.mpr ⟨?_, by simpa using hq3⟩, rfl⟩
    exact (List.perm_insertionSort cntOrd _).symm.subset hq

/- ===================== C7 ===================== -/

/-- C7: for every edge list and call graph, the critical-path list
produced by FlowAnalyzer contains at most 5 entries, and every entry it
contains has a recorded count of at least 2. -/
theorem C7_critical_path_bounds (cg : List (String × List String)) :
    (identifyCriticalPaths cg).length ≤ 5 ∧
    ∀ p ∈ identifyCriticalPaths cg, 2 ≤ p.callCount := by
  refine ⟨icp_length_le cg, fun p hp => ?_⟩
  rcases icp_mem hp with ⟨q, _, hq2, rfl⟩
  simpa [mkCriticalPath] using hq2

/-- Witness for C7 at the concrete call graph exCG. -/
theorem C7_critical_path_bounds_witness :
    (identifyCriticalPaths exCG).length ≤ 5 ∧
    2 ≤ ({ id := "path_g", entryPoint := "g", callCount := 2,
           complexity := "medium" } : CriticalPath).callCount :=
  ⟨(C7_critical_path_bounds exCG).1,
   (C7_critical_path_bounds exCG).2 _ (by decide)⟩

/- ===================== C2 ===================== -/

/-- Counterexample to C2: in the call graph with the single callee f
called twice by g, the code counts call entries per CALLER and emits an
entry identifying g, which is not a callee of the call graph; no entry
identifies the callee f (fan-in 2) as the claim requires. -/
theorem C2_cex :
    (identifyCriticalPaths exCG).map (fun p => (p.entryPoint, p.callCount)) = [("g", 2)] ∧
    exCG.map (fun q => q.1) = ["f"] ∧
    ("g" : String) ≠ "f" := by
  refine ⟨by decide, by decide, by decide⟩

/-- C2 amended: critical-path identification counts, for each CALLER
recorded in the call graph, the number of recorded call entries made by
that caller (duplicates counted); it ranks the callers by that count
descending (stable), keeps the top 5, drops any with count below 2, and
marks complexity high exactly when the count exceeds 5; each resulting
entry identifies a caller (its entry point). -/
theorem C2_amended (cg : List (String × List String)) :
    (identifyCriticalPaths cg).length ≤ 5 ∧
    List.Pairwise (fun a b => b.callCount ≤ a.callCount) (identifyCriticalPaths cg) ∧
    ∀ p ∈ identifyCriticalPaths cg,
      p.callCount = (allCallers cg).count p.entryPoint ∧
      2 ≤ p.callCount ∧
      p.entryPoint ∈ allCallers cg ∧
      (p.complexity = "high" ↔ 5 < p.callCount) ∧
      p.id = "path_" ++ charReplace '.' '_' p.entryPoint := by
  refine ⟨icp_length_le cg, icp_pairwise cg, fun p hp => ?_⟩
  rcases icp_mem hp with ⟨q, hq, hq2, rfl⟩
  have hcount := tally_count hq
  have hkey := tally_key_mem hq
  refine ⟨by simpa [mkCriticalPath] using hcount, by simpa [mkCriticalPath] using hq2,
    by simpa [mkCriticalPath] using hkey, ?_, by simp [mkCriticalPath]⟩
  by_cases h5 : 5 < q.2
  · simp [mkCriticalPath, h5]
  · simp only [mkCriticalPath, if_neg h5]
    constructor
    · intro h
      exact absurd h (by decide)
    · intro h
      exact absurd h h5

/-- Witness for C2 amended at the concrete call graph exCG. -/
theorem C2_amended_witness :
    ({ id := "path_g", entryPoint := "g", callCount := 2,
       complexity := "medium" } : CriticalPath).callCount = (allCallers exCG).count "g" :=
  (((C2_amended exCG).2.2 _ (by decide)).1)

/- ===================== C4 ===================== -/

/-- C4: crossroad detection counts, per unordered pair of distinct
leading FQN segments, the edges crossing that pair; it reports exactly
the pairs with count at least 3, criticality high exactly when the
count exceeds 10, in descending count order (the stable sort keeps ties
in first-encountered order, and sorting commutes with the threshold
filter); two files with exactly 2 cross-module edges yield zero
crossroads, with 3 one medium crossroad, with 11 a high one. -/
theorem C4_crossroads (edges : List Edge) :
    detectCrossroads edges =
      (List.insertionSort cntOrd
        ((moduleInteractions edges).filter (fun q => 3 ≤ q.2))).map mkCrossroad ∧
    (∀ k v, (k, v) ∈ moduleInteractions edges ↔
      k ∈ edges.filterMap crossKey ∧
      v = (edges.filter (fun e => crossKey e == some k)).length) ∧
    (∀ c ∈ detectCrossroads edges,
      3 ≤ c.integrationCount ∧ (c.criticality = "high" ↔ 10 < c.integrationCount)) ∧
    (∀ q ∈ moduleInteractions edges, 3 ≤ q.2 → mkCrossroad q ∈ detectCrossroads edges) ∧
    List.Pairwise (fun a b => b.integrationCount ≤ a.integrationCount)
      (detectCrossroads edges) ∧
    detectCrossroads [xEdge "a.x" "b.y" 1, xEdge "a.x" "b.z" 2] = [] ∧
    detectCrossroads [xEdge "a.x" "b.y" 1, xEdge "a.x" "b.z" 2, xEdge "b.q" "a.r" 3]
      = [crAB] ∧
    (detectCrossroads ((List.range 11).map (fun n => xEdge "a.x" "b.y" n))).map
      (fun c => (c.integrationCount, c.criticality)) = [(11, "high")] := by
  refine ⟨?_, ?_, ?_, ?_, ?_, by decide, by decide, by decide⟩
  · unfold detectCrossroads
    rw [insertionSort_filter]
  · intro k v
    constructor
    · intro h
      have h1 := tally_count h
      have h2 := tally_key_mem h
      exact ⟨h2, by rw [h1, count_filterMap]⟩
    · rintro ⟨h1, rfl⟩
      rw [← count_filterMap]
      exact mem_tally h1
  · intro c hc
    rcases dc_mem.mp hc with ⟨q, _, hq3, rfl⟩
    refine ⟨by simpa [mkCrossroad] using hq3, ?_⟩
    by_cases h10 : 10 < q.2
    · simp [mkCrossroad, h10]
    · simp only [mkCrossroad, if_neg h10]
      constructor
      · intro h
        exact absurd h (by decide)
      · intro h
        exact absurd h h10
  · intro q hq hq3
    exact dc_mem.mpr ⟨q, hq, hq3, rfl⟩
  · unfold detectCrossroads
    rw [List.pairwise_map]
    have h1 : (List.insertionSort cntOrd (moduleInteractions edges)).Pairwise cntOrd :=
      List.sorted_insertionSort cntOrd (moduleInteractions edges)
    have hsub :
        List.Sublist
          ((List.insertionSort cntOrd (moduleInteractions edges)).filter
            (fun q => decide (3 ≤ q.2)))
          (List.insertionSort cntOrd (moduleInteractions edges)) :=
      List.filter_sublist _
    exact (h1.sublist hsub).imp (fun h => h)

/-- Witness for C4 at the three-edge fixture. -/
theorem C4_crossroads_witness :
    3 ≤ crAB.integrationCount ∧ (crAB.criticality = "high" ↔ 10 < crAB.integrationCount) :=
  (C4_crossroads [xEdge "a.x" "b.y" 1, xEdge "a.x" "b.z" 2, xEdge "b.q" "a.r" 3]).2.2.1
    crAB (by decide)

/- ===================== lemmas: ComponentIndexer ===================== -/

theorem alookup_numberedFrom (seen : List String) :
    ∀ (n : Nat) (q : String),
      alookup (numberedFrom n seen) q =
        if q ∈ seen then some (n + posIn q seen) else none := by
  induction seen with
  | nil => intro n q; simp [numberedFrom, alookup]
  | cons x rest ih =>
    intro n q
    by_cases hx : x = q
    · simp [numberedFrom, alookup, posIn, hx]
    · have hx2 : (x == q) = false := beq_eq_false_iff_ne.mpr hx
      have hqx : ¬q = x := fun h2 => hx h2.symm
      by_cases hq : q ∈ rest
      · simp [numberedFrom, alookup, posIn, hx2, hx, hq, ih (n + 1) q]
        omega
      · have hnotc : q ∉ x :: rest := by simp [hq, hqx]
        simp [numberedFrom, alookup, posIn, hx2, hq, ih (n + 1) q, hnotc, hqx]

theorem numberedFrom_append (a : List String) :
    ∀ (n : Nat) (q : String),
      numberedFrom n (a ++ [q]) = numberedFrom n a ++ [(q, n + a.length)] := by
  induction a with
  | nil => intro n q; simp [numberedFrom]
  | cons x rest ih =>
    intro n q
    have hn : n + 1 + rest.length = n + (rest.length + 1) := by omega
    simp only [List.cons_append, numberedFrom, List.append_eq, ih (n + 1) q,
      List.length_cons, hn]

theorem posIn_append_left {q : String} {seen : List String} (h : q ∈ seen) (zs : List String) :
    posIn q (seen ++ zs) = posIn q seen := by
  induction seen with
  | nil => simp at h
  | cons x rest ih =>
    by_cases hx : x = q
    · simp [posIn, hx]
    · have hx2 : (x == q) = false := beq_eq_false_iff_ne.mpr hx
      have hq : q ∈ rest := by
        rcases List.mem_cons.mp h with h2 | h2
        · exact absurd h2.symm hx
        · exact h2
      simp [posIn, hx2, ih hq]

theorem posIn_append_self {q : String} {seen : List String} (h : q ∉ seen) (zs : List String) :
    posIn q (seen ++ q :: zs) = seen.length := by
  induction seen with
  | nil => simp [posIn]
  | cons x rest ih =>
    have hx : x ≠ q := fun he => h (by simp [he])
    have hx2 : (x == q) = false := beq_eq_false_iff_ne.mpr hx
    have hq : q ∉ rest := fun h2 => h (List.mem_cons_of_mem _ h2)
    simp [posIn, hx2, ih hq]

theorem canonIx_getOrCreateId_mem {seen : List String} {q : String} (h : q ∈ seen) :
    (canonIx seen).getOrCreateId q = (posIn q seen + 1, canonIx seen) := by
  unfold ComponentIndexer.getOrCreateId canonIx
  simp [alookup_numberedFrom seen 1 q, h, Nat.add_comm]

theorem canonIx_getOrCreateId_notmem {seen : List String} {q : String} (h : q ∉ seen) :
    (canonIx seen).getOrCreateId q = (seen.length + 1, canonIx (seen ++ [q])) := by
  unfold ComponentIndexer.getOrCreateId canonIx
  have hn : 1 + seen.length = seen.length + 1 := by omega
  simp [alookup_numberedFrom seen 1 q, h, numberedFrom_append seen 1 q,
    List.length_append, hn]

theorem dedupFirst_cons (q : String) (rest : List String) :
    dedupFirst (q :: rest) = q :: (dedupFirst rest).filter (fun x => x != q) := rfl

theorem newOnes_nil (seen : List String) : newOnes seen [] = [] := by
  simp [newOnes, dedupFirst]

theorem newOnes_cons_mem {seen : List String} {q : String} (h : q ∈ seen)
    (rest : List String) : newOnes seen (q :: rest) = newOnes seen rest := by
  unfold newOnes
  rw [dedupFirst_cons]
  have hq : seen.contains q = true := by
    simpa [List.elem_iff] using h
  rw [List.filter_cons]
  simp only [hq, Bool.not_true, Bool.false_eq_true, if_neg, not_false_iff]
  rw [List.filter_filter]
  apply List.filter_congr
  intro x hx
  by_cases hxs : x ∈ seen
  · have hc : seen.contains x = true := by simpa [List.elem_iff] using hxs
    rw [hc]
    rfl
  · have hc : seen.contains x = false := by simp [List.elem_iff, hxs]
    have hxq : (x != q) = true := bne_iff_ne.mpr (fun he => hxs (he ▸ h))
    rw [hc, hxq]
    rfl

theorem newOnes_cons_notmem {seen : List String} {q : String} (h : q ∉ seen)
    (rest : List String) : newOnes seen (q :: rest) = q :: newOnes (seen ++ [q]) rest := by
  unfold newOnes
  rw [dedupFirst_cons]
  have hq : seen.contains q = false := by
    simp [List.elem_iff, h]
  rw [List.filter_cons]
  simp only [hq, Bool.not_false, if_pos]
  rw [List.filter_filter]
  congr 1
  apply List.filter_congr
  intro x hx
  by_cases hxq : x = q
  · have hc2 : (seen ++ [q]).contains x = true := by
      simp [List.elem_iff, hxq]
    have hxq2 : (x != q) = false := by simp [hxq]
    rw [hc2, hxq2, Bool.and_false]
    rfl
  · by_cases hxs : x ∈ seen
    · have hc1 : seen.contains x = true := by simpa [List.elem_iff] using hxs
      have hc2 : (seen ++ [q]).contains x = true := by
        simp [List.elem_iff, hxs]
      rw [hc1, hc2]
      rfl
    · have hc1 : seen.contains x = false := by simp [List.elem_iff, hxs]
      have hc2 : (seen ++ [q]).contains x = false := by
        simp [List.elem_iff, hxs, hxq]
      have hxq2 : (x != q) = true := by simp [hxq]
      rw [hc1, hc2, hxq2]
      rfl

theorem runLookups_go (qs : List String) :
    ∀ (seen : List String) (ids : List Nat),
      qs.foldl lookStep (ids, canonIx seen) =
        (ids ++ qs.map (fun q => posIn q (seen ++ newOnes seen qs) + 1),
         canonIx (seen ++ newOnes seen qs)) := by
  induction qs with
  | nil => intro seen ids; simp [newOnes_nil]
  | cons q rest ih =>
    intro seen ids
    by_cases hq : q ∈ seen
    · have hstep : lookStep (ids, canonIx seen) q = (ids ++ [posIn q seen + 1], canonIx seen) := by
        simp [lookStep, canonIx_getOrCreateId_mem hq]
      rw [List.foldl_cons, hstep, ih seen (ids ++ [posIn q seen + 1]),
        newOnes_cons_mem hq rest]
      simp only [List.map_cons, posIn_append_left hq, List.append_assoc,
        List.singleton_append]
    · have hstep : lookStep (ids, canonIx seen) q =
          (ids ++ [seen.length + 1], canonIx (seen ++ [q])) := by
        simp [lookStep, canonIx_getOrCreateId_notmem hq]
      rw [List.foldl_cons, hstep, ih (seen ++ [q]) (ids ++ [seen.length + 1]),
        newOnes_cons_notmem hq rest]
      simp only [List.map_cons, List.append_assoc, List.singleton_append,
        List.cons_append, List.nil_append]
      rw [posIn_append_self hq]

theorem dedupFirst_nodup (qs : List String) : (dedupFirst qs).Nodup := by
  induction qs with
  | nil => simp [dedupFirst]
  | cons q rest ih =>
    rw [dedupFirst]
    refine List.nodup_cons.mpr ⟨?_, ih.filter _⟩
    intro hmem
    rcases List.mem_filter.mp hmem with ⟨_, h2⟩
    simp at h2

theorem posIn_enum {l : List String} (hl : l.Nodup) :
    l.map (fun q => posIn q l + 1) = List.range' 1 l.length := by
  induction l with
  | nil => simp
  | cons x rest ih =>
    rcases List.nodup_cons.mp hl with ⟨hx, hrest⟩
    rw [List.map_cons]
    have hhead : posIn x (x :: rest) + 1 = 1 := by simp [posIn]
    have htail : rest.map (fun q => posIn q (x :: rest) + 1) =
        rest.map (fun q => posIn q rest + 1 + 1) := by
      apply List.map_congr_left
      intro a ha
      have hne : x ≠ a := fun he => hx (he ▸ ha)
      have hx2 : (x == a) = false := beq_eq_false_iff_ne.mpr hne
      simp [posIn, hx2]
    rw [hhead, htail, List.length_cons, List.range'_succ]
    congr 1
    have : rest.map (fun q => posIn q rest + 1 + 1) =
        (rest.map (fun q => posIn q rest + 1)).map (fun n => n + 1) := by
      rw [List.map_map]
      rfl
    rw [this, ih hrest]
    have h4 := List.map_add_range' 1 1 rest.length 1
    simpa [Nat.add_comm] using h4

/- ===================== C8 ===================== -/

theorem newOnes_nil_seen (qs : List String) : newOnes [] qs = dedupFirst qs := by
  unfold newOnes
  apply List.filter_eq_self.mpr
  intro x _
  rfl

/-- C8: get_or_create_id is idempotent and monotonic.  The first
conjunct computes every returned ID as a function of the queried FQN
alone (its position among the distinct FQNs in first-lookup order,
1-based); the second shows those distinct FQNs receive exactly the IDs
1, 2, 3, ...; the third is idempotence: equal queries anywhere in the
sequence receive equal IDs. -/
theorem C8_indexer_id_law (qs : List String) :
    (runLookups qs).1 = qs.map (fun q => posIn q (dedupFirst qs) + 1) ∧
    (dedupFirst qs).map (fun q => posIn q (dedupFirst qs) + 1) =
      List.range' 1 (dedupFirst qs).length ∧
    ∀ i j, i < qs.length → j < qs.length → qs.getD i "" = qs.getD j "" →
      (runLookups qs).1.getD i 0 = (runLookups qs).1.getD j 0 := by
  have hstart : ComponentIndexer.start = canonIx [] := rfl
  have hmain : (runLookups qs).1 = qs.map (fun q => posIn q (dedupFirst qs) + 1) := by
    unfold runLookups
    rw [hstart, runLookups_go qs [] [], newOnes_nil_seen qs]
    simp
  refine ⟨hmain, posIn_enum (dedupFirst_nodup qs), ?_⟩
  have hg : ∀ (n : Nat), n < qs.length →
      (qs.map (fun q => posIn q (dedupFirst qs) + 1)).getD n 0 =
        posIn (qs.getD n "") (dedupFirst qs) + 1 := by
    intro n hn
    rw [List.getD_eq_getElem?_getD, List.getElem?_map, List.getElem?_eq_getElem hn]
    rw [List.getD_eq_getElem?_getD, List.getElem?_eq_getElem hn]
    rfl
  intro i j hi hj hij
  rw [hmain, hg i hi, hg j hj, hij]

/-- Witness for C8: in the sequence x, y, x the first and third lookups
return the same ID. -/
theorem C8_indexer_id_law_witness :
    (runLookups ["x", "y", "x"]).1.getD 0 0 = (runLookups ["x", "y", "x"]).1.getD 2 0 :=
  (C8_indexer_id_law ["x", "y", "x"]).2.2 0 2 (by decide) (by decide) (by decide)

/- ===================== C6 ===================== -/

/-- Counterexample to C6: for the file x.py.py the code removes every
occurrence of ".py" (str.replace replaces all occurrences, not just a
trailing suffix), yielding "x", while the claim (strip only the
trailing suffix, alter nothing else) demands "x.py". -/
theorem C6_cex :
    moduleFqnOfPath "x.py.py" = "x" ∧
    claimModuleFqn "x.py.py" = "x.py" ∧
    ("x" : String) ≠ "x.py" := by
  refine ⟨by decide, by decide, by decide⟩

/-- Deleting all occurrences of ".py" from xs ++ ".py" returns xs when
".py" does not occur inside xs (the pattern cannot straddle the
boundary because it has length 3 and starts with a character different
from its second and third characters). -/
theorem delOcc_strip (xs : List Char) (h : hasOccur patPy xs = false) :
    delOccGo patPy (xs ++ patPy) 0 = xs := by
  induction xs with
  | nil => rfl
  | cons c rest ih =>
    have h1 : patPy.isPrefixOf (c :: rest) = false ∧ hasOccur patPy rest = false := by
      simpa [hasOccur, Bool.or_eq_false_iff] using h
    have hpd : ('p' == '.') = false := by decide
    have hyd : ('y' == '.') = false := by decide
    have hnp : patPy.isPrefixOf (c :: (rest ++ patPy)) = false := by
      cases rest with
      | nil => simp [patPy, List.isPrefixOf, hpd]
      | cons c2 rest2 =>
        cases rest2 with
        | nil => simp [patPy, List.isPrefixOf, hyd]
        | cons c3 rest3 =>
          have h2 := h1.1
          simp only [patPy, List.isPrefixOf, List.cons_append, List.nil_append,
            Bool.and_eq_false_iff] at h2 ⊢
          rcases h2 with h2 | h2
          · exact Or.inl h2
          · rcases h2 with h2 | h2
            · exact Or.inr (Or.inl h2)
            · rcases h2 with h2 | h2
              · exact Or.inr (Or.inr (Or.inl h2))
              · simp [List.isPrefixOf] at h2
    have hstep : delOccGo patPy ((c :: rest) ++ patPy) 0 =
        c :: delOccGo patPy (rest ++ patPy) 0 := by
      rw [List.cons_append]
      simp only [delOccGo, hnp, Bool.false_eq_true, if_neg, not_false_iff]
    rw [hstep, ih h1.2]

/-- C6 amended: the module FQN is the path with separators replaced by
dots and then EVERY occurrence of the substring ".py" removed; when
".py" occurs only as the trailing suffix of the dotted path, this
coincides with suffix stripping, as stated here. -/
theorem C6_amended (p : String) (xs : List Char)
    (h1 : (charReplace '/' '.' p).data = xs ++ patPy)
    (h2 : hasOccur patPy xs = false) :
    moduleFqnOfPath p = String.mk xs := by
  unfold moduleFqnOfPath pyDelReplace
  have hd : (".py" : String).data = patPy := rfl
  rw [hd, h1, delOcc_strip xs h2]

/-- Witness for C6 amended at the ordinary path pkg/mod.py. -/
theorem C6_amended_witness : moduleFqnOfPath "pkg/mod.py" = String.mk "pkg.mod".data :=
  C6_amended "pkg/mod.py" "pkg.mod".data (by decide) (by decide)

/- ===================== C3 ===================== -/

/-- C3 evaluated at the failing input: the verbose encoding keeps the
call edge with integration_type function_call, its argument, and the
items of the import, while decoding the compact encoding yields edges whose
integration_type is forced to equal the expanded type code ("call",
"import") and which carry no items or args fields at all; so decoding
does not reproduce the verbose logical content. -/
theorem C3_roundtrip_loss :
    ((verboseBuildOutput exTable [exCallEdge, exImpEdge] exMd [] []).integrationEdges.map
      (fun e => (e.etype, e.integrationType, e.items, e.args.length)))
      = [("call", "function_call", [], 1), ("import", "import_module", ["a"], 0)] ∧
    ((decodeCompact (compactBuildOutput exTable [exCallEdge, exImpEdge] exMd [] [])).integrationEdges.map
      (fun e => (e.etype, e.integrationType)))
      = [("call", "call"), ("import", "import")] ∧
    ("function_call" : String) ≠ "call" := by
  refine ⟨by decide, by decide, by decide⟩

/- ===================== lemmas: IntegrationExtractor ===================== -/

theorem currentFqn_eq_joinDot (st : ExtState) : st.currentFqn = joinDot st.scopeStack := by
  unfold ExtState.currentFqn
  cases h : st.scopeStack with
  | nil => simp [joinDot]
  | cons a l => simp [joinDot]

theorem visitExprE_spec (e : PyExpr) : ∀ (st : ExtState),
    ∃ new, (visitExprE st e).edges = st.edges ++ new ∧
      (∀ ed ∈ new, ed.source = st.currentFqn) ∧
      (visitExprE st e).scopeStack = st.scopeStack := by
  induction e with
  | nameE id line => intro st; exact ⟨[], by simp [visitExprE], by simp, rfl⟩
  | constE line => intro st; exact ⟨[], by simp [visitExprE], by simp, rfl⟩
  | attrE v a store line ih =>
    intro st
    set ed0 : Edge :=
      { Edge.base "attribute" st.currentFqn line "attribute_access" with
        target := some (extractAttributeFqn (.attrE v a store line)),
        accessMode := some (if store then "write" else "read") }
    have hed0 : ed0.source = st.currentFqn := rfl
    have hun : visitExprE st (.attrE v a store line) =
        visitExprE { st with edges := st.edges ++ [ed0] } v := rfl
    rcases ih { st with edges := st.edges ++ [ed0] } with ⟨new2, hnew2, hsrc2, hstack2⟩
    refine ⟨ed0 :: new2, ?_, ?_, ?_⟩
    · rw [hun, hnew2]
      simp
    · intro ed hed
      rcases List.mem_cons.mp hed with h | h
      · rw [h, hed0]
      · exact hsrc2 ed h
    · rw [hun, hstack2]
  | callE f line ih =>
    intro st
    set ed0 : Edge :=
      { Edge.base "call" st.currentFqn line "function_call" with
        target := some (resolveCallTarget st.aliasMap f),
        targetFqn := some (resolveCallTarget st.aliasMap f) }
    have hed0 : ed0.source = st.currentFqn := rfl
    have hun : visitExprE st (.callE f line) =
        visitExprE
          { st with
            edges := st.edges ++ [ed0]
            callGraph := appendMulti st.callGraph (resolveCallTarget st.aliasMap f)
              st.currentFqn } f := rfl
    rcases ih
        { st with
          edges := st.edges ++ [ed0]
          callGraph := appendMulti st.callGraph (resolveCallTarget st.aliasMap f)
            st.currentFqn } with ⟨new2, hnew2, hsrc2, hstack2⟩
    refine ⟨ed0 :: new2, ?_, ?_, ?_⟩
    · rw [hun, hnew2]
      simp
    · intro ed hed
      rcases List.mem_cons.mp hed with h | h
      · rw [h, hed0]
      · exact hsrc2 ed h
    · rw [hun, hstack2]

theorem visitImportE_spec (names : List (String × Option String)) :
    ∀ (st : ExtState) (line : Nat),
      ∃ new, (visitImportE st names line).edges = st.edges ++ new ∧
        (∀ ed ∈ new, ed.etype = "import") ∧
        (visitImportE st names line).scopeStack = st.scopeStack := by
  induction names with
  | nil => intro st line; exact ⟨[], by simp [visitImportE], by simp, rfl⟩
  | cons p rest ih =>
    intro st line
    set ed0 : Edge :=
      { Edge.base "import" st.currentFqn line "import_module" with
        target := some p.1, items := [p.2.getD p.1] }
    have hed0 : ed0.etype = "import" := rfl
    have hun : visitImportE st (p :: rest) line =
        visitImportE
          { st with
            aliasMap := aupd st.aliasMap (p.2.getD p.1) p.1
            edges := st.edges ++ [ed0] } rest line := rfl
    rcases ih
        { st with
          aliasMap := aupd st.aliasMap (p.2.getD p.1) p.1
          edges := st.edges ++ [ed0] } line with ⟨new2, hnew2, htype2, hstack2⟩
    refine ⟨ed0 :: new2, ?_, ?_, ?_⟩
    · rw [hun, hnew2]
      simp
    · intro ed hed
      rcases List.mem_cons.mp hed with h | h
      · rw [h, hed0]
      · exact htype2 ed h
    · rw [hun, hstack2]

theorem importFromFold_spec (m : String) (names : List (String × Option String)) :
    ∀ (st : ExtState),
      (names.foldl
        (fun st3 p =>
          { st3 with aliasMap := aupd st3.aliasMap (p.2.getD p.1) (m ++ "." ++ p.1) })
        st).edges = st.edges ∧
      (names.foldl
        (fun st3 p =>
          { st3 with aliasMap := aupd st3.aliasMap (p.2.getD p.1) (m ++ "." ++ p.1) })
        st).scopeStack = st.scopeStack ∧
      (names.foldl
        (fun st3 p =>
          { st3 with aliasMap := aupd st3.aliasMap (p.2.getD p.1) (m ++ "." ++ p.1) })
        st).currentFqn = st.currentFqn := by
  induction names with
  | nil => intro st; exact ⟨rfl, rfl, rfl⟩
  | cons p rest ih =>
    intro st
    rw [List.foldl_cons]
    exact ih _

theorem visitImportFromE_spec (st : ExtState) (moduleName : Option String)
    (names : List (String × Option String)) (line : Nat) :
    ∃ new, (visitImportFromE st moduleName names line).edges = st.edges ++ new ∧
      (∀ ed ∈ new, ed.etype = "import") ∧
      (visitImportFromE st moduleName names line).scopeStack = st.scopeStack := by
  cases moduleName with
  | none => exact ⟨[], by simp [visitImportFromE], by simp, rfl⟩
  | some m =>
    rcases importFromFold_spec m names st with ⟨he, hs, hc⟩
    refine ⟨[{ Edge.base "import"
        ((names.foldl
          (fun st3 p =>
            { st3 with aliasMap := aupd st3.aliasMap (p.2.getD p.1) (m ++ "." ++ p.1) })
          st).currentFqn) line "import_from" with
        target := some m, items := names.map (·.1) }], ?_, ?_, ?_⟩
    · show ({ (names.foldl
          (fun st3 p =>
            { st3 with aliasMap := aupd st3.aliasMap (p.2.getD p.1) (m ++ "." ++ p.1) })
          st) with edges := _ ++ _ } : ExtState).edges = _
      rw [he]
    · intro ed hed
      rcases List.mem_cons.mp hed with h | h
      · rw [h]
        rfl
      · simp at h
    · show ({ (names.foldl
          (fun st3 p =>
            { st3 with aliasMap := aupd st3.aliasMap (p.2.getD p.1) (m ++ "." ++ p.1) })
          st) with edges := _ ++ _ } : ExtState).scopeStack = _
      rw [hs]

theorem classHeaderE_spec (st : ExtState) (name : String) (bases : List PyExpr)
    (line : Nat) :
    ∃ new, (classHeaderE st name bases line).edges = st.edges ++ new ∧
      (∀ ed ∈ new, ed.etype = "inheritance") ∧
      (classHeaderE st name bases line).scopeStack = st.scopeStack := by
  by_cases hb : (bases.filterMap (fun b =>
      match b with
      | .nameE id _ => some ((alookup st.aliasMap id).getD id)
      | .attrE v a s l => some (extractAttributeFqn (.attrE v a s l))
      | _ => none)).isEmpty
  · have hun : classHeaderE st name bases line = st := by
      unfold classHeaderE
      rw [if_pos hb]
    exact ⟨[], by rw [hun]; simp, by simp, by rw [hun]⟩
  · have hun : classHeaderE st name bases line =
        { st with edges := st.edges ++
            [{ Edge.base "inheritance" (st.currentFqn ++ "." ++ name) line "inheritance" with
               targets := bases.filterMap (fun b =>
                 match b with
                 | .nameE id _ => some ((alookup st.aliasMap id).getD id)
                 | .attrE v a s l => some (extractAttributeFqn (.attrE v a s l))
                 | _ => none) }] } := by
      unfold classHeaderE
      rw [if_neg hb]
    refine ⟨_, by rw [hun], ?_, by rw [hun]⟩
    intro ed hed
    rcases List.mem_cons.mp hed with h | h
    · rw [h]
      rfl
    · simp at h
theorem visitStmtsE_stack (fuel : Nat) : ∀ (ss : List PyStmt) (st st2 : ExtState),
    visitStmtsE fuel st ss = some st2 → st2.scopeStack = st.scopeStack := by
  induction fuel with
  | zero =>
    intro ss st st2 h
    cases ss with
    | nil =>
      simp [visitStmtsE] at h
      rw [h]
    | cons s rest => simp [visitStmtsE] at h
  | succ fuel ih =>
    intro ss st st2 h
    cases ss with
    | nil =>
      simp [visitStmtsE] at h
      rw [h]
    | cons s rest =>
      cases s with
      | importS names line =>
        simp only [visitStmtsE] at h
        rcases visitImportE_spec names st line with ⟨new, -, -, hstk⟩
        rw [ih rest _ st2 h, hstk]
      | importFromS mo names line =>
        simp only [visitStmtsE] at h
        rcases visitImportFromE_spec st mo names line with ⟨new, -, -, hstk⟩
        rw [ih rest _ st2 h, hstk]
      | exprS e =>
        simp only [visitStmtsE] at h
        rcases visitExprE_spec e st with ⟨new, -, -, hstk⟩
        rw [ih rest _ st2 h, hstk]
      | funcDef n l1 l2 ps d body =>
        simp only [visitStmtsE] at h
        cases hb : visitStmtsE fuel st body with
        | none => simp [hb] at h
        | some stB =>
          simp only [hb] at h
          rw [ih rest stB st2 h, ih body st stB hb]
      | classDef n l1 l2 bases d body =>
        simp only [visitStmtsE] at h
        rcases classHeaderE_spec st n bases l1 with ⟨newH, -, -, hstkH⟩
        cases hb : visitStmtsE fuel
            { classHeaderE st n bases l1 with
              scopeStack := (classHeaderE st n bases l1).scopeStack ++ [n] } body with
        | none => simp [hb] at h
        | some stB =>
          simp only [hb] at h
          have h1 := ih body _ stB hb
          have h2 := ih rest _ st2 h
          dsimp only at h1 h2
          rw [h2, h1, hstkH, List.dropLast_concat]

theorem ChainIn_mono {ss ss2 : List PyStmt} {cs : List String}
    (hsub : ∀ s ∈ ss, s ∈ ss2) (h : ChainIn ss cs) : ChainIn ss2 cs := by
  cases h with
  | nil => exact ChainIn.nil ss2
  | here hmem hbody => exact ChainIn.here (hsub _ hmem) hbody
  | underFunc hmem hbody => exact ChainIn.underFunc (hsub _ hmem) hbody

theorem visitStmtsE_sources (fuel : Nat) : ∀ (ss : List PyStmt) (st st2 : ExtState),
    visitStmtsE fuel st ss = some st2 →
    ∀ ed ∈ st2.edges, ed ∈ st.edges ∨
      ((ed.etype = "call" ∨ ed.etype = "attribute") →
        ∃ cs, ChainIn ss cs ∧ ed.source = joinDot (st.scopeStack ++ cs)) := by
  induction fuel with
  | zero =>
    intro ss st st2 h ed hed
    cases ss with
    | nil =>
      simp [visitStmtsE] at h
      left
      rw [h]
      exact hed
    | cons s rest => simp [visitStmtsE] at h
  | succ fuel ih =>
    intro ss st st2 h ed hed
    cases ss with
    | nil =>
      simp [visitStmtsE] at h
      left
      rw [h]
      exact hed
    | cons s rest =>
      cases s with
      | importS names line =>
        simp only [visitStmtsE] at h
        rcases visitImportE_spec names st line with ⟨new, hedges, htype, hstk⟩
        rcases ih rest _ st2 h ed hed with hmem | hrec
        · rw [hedges] at hmem
          rcases List.mem_append.mp hmem with hm | hnew
          · exact Or.inl hm
          · right
            intro hca
            exfalso
            have hn := htype ed hnew
            rcases hca with hc | hc
            · rw [hn] at hc
              exact absurd hc (by decide)
            · rw [hn] at hc
              exact absurd hc (by decide)
        · right
          intro hca
          rcases hrec hca with ⟨cs, hch, hsrc⟩
          exact ⟨cs, ChainIn_mono (fun s hs => List.mem_cons_of_mem _ hs) hch,
            by rw [hsrc, hstk]⟩
      | importFromS mo names line =>
        simp only [visitStmtsE] at h
        rcases visitImportFromE_spec st mo names line with ⟨new, hedges, htype, hstk⟩
        rcases ih rest _ st2 h ed hed with hmem | hrec
        · rw [hedges] at hmem
          rcases List.mem_append.mp hmem with hm | hnew
          · exact Or.inl hm
          · right
            intro hca
            exfalso
            have hn := htype ed hnew
            rcases hca with hc | hc
            · rw [hn] at hc
              exact absurd hc (by decide)
            · rw [hn] at hc
              exact absurd hc (by decide)
        · right
          intro hca
          rcases hrec hca with ⟨cs, hch, hsrc⟩
          exact ⟨cs, ChainIn_mono (fun s hs => List.mem_cons_of_mem _ hs) hch,
            by rw [hsrc, hstk]⟩
      | exprS e =>
        simp only [visitStmtsE] at h
        rcases visitExprE_spec e st with ⟨new, hedges, hsrcnew, hstk⟩
        rcases ih rest _ st2 h ed hed with hmem | hrec
        · rw [hedges] at hmem
          rcases List.mem_append.mp hmem with hm | hnew
          · exact Or.inl hm
          · right
            intro hca
            refine ⟨[], ChainIn.nil _, ?_⟩
            rw [hsrcnew ed hnew, List.append_nil, currentFqn_eq_joinDot]
        · right
          intro hca
          rcases hrec hca with ⟨cs, hch, hsrc⟩
          exact ⟨cs, ChainIn_mono (fun s hs => List.mem_cons_of_mem _ hs) hch,
            by rw [hsrc, hstk]⟩
      | funcDef n l1 l2 ps d body =>
        simp only [visitStmtsE] at h
        cases hb : visitStmtsE fuel st body with
        | none => simp [hb] at h
        | some stB =>
          simp only [hb] at h
          have hstkB := visitStmtsE_stack fuel body st stB hb
          rcases ih rest stB st2 h ed hed with hmem | hrec
          · rcases ih body st stB hb ed hmem with hmem2 | hrec2
            · exact Or.inl hmem2
            · right
              intro hca
              rcases hrec2 hca with ⟨cs, hch, hsrc⟩
              exact ⟨cs, ChainIn.underFunc (List.mem_cons_self _ _) hch, hsrc⟩
          · right
            intro hca
            rcases hrec hca with ⟨cs, hch, hsrc⟩
            refine ⟨cs, ChainIn_mono (fun s hs => List.mem_cons_of_mem _ hs) hch, ?_⟩
            rw [hsrc, hstkB]
      | classDef n l1 l2 bases d body =>
        simp only [visitStmtsE] at h
        rcases classHeaderE_spec st n bases l1 with ⟨newH, hedgesH, htypeH, hstkH⟩
        cases hb : visitStmtsE fuel
            { classHeaderE st n bases l1 with
              scopeStack := (classHeaderE st n bases l1).scopeStack ++ [n] } body with
        | none => simp [hb] at h
        | some stB =>
          simp only [hb] at h
          have hstkB := visitStmtsE_stack fuel body _ stB hb
          dsimp only at hstkB
          rw [hstkH] at hstkB
          rcases ih rest _ st2 h ed hed with hmem | hrec
          · dsimp only at hmem
            rcases ih body _ stB hb ed hmem with hmem2 | hrec2
            · dsimp only at hmem2
              rw [hedgesH] at hmem2
              rcases List.mem_append.mp hmem2 with hm | hnewH
              · exact Or.inl hm
              · right
                intro hca
                exfalso
                have hn := htypeH ed hnewH
                rcases hca with hc | hc
                · rw [hn] at hc
                  exact absurd hc (by decide)
                · rw [hn] at hc
                  exact absurd hc (by decide)
            · right
              intro hca
              rcases hrec2 hca with ⟨cs, hch, hsrc⟩
              refine ⟨n :: cs, ChainIn.here (List.mem_cons_self _ _) hch, ?_⟩
              rw [hsrc]
              dsimp only
              rw [hstkH, List.append_assoc, List.singleton_append]
          · right
            intro hca
            rcases hrec hca with ⟨cs, hch, hsrc⟩
            refine ⟨cs, ChainIn_mono (fun s hs => List.mem_cons_of_mem _ hs) hch, ?_⟩
            rw [hsrc]
            dsimp only
            rw [hstkB, List.dropLast_concat]

/-- C1 counterexample: on the end-to-end scenario file b (import a;
def g(): a.f()), the extracted call edge has source "b", not "b.g":
the extractor never pushes function scopes. -/
theorem C1_cex :
    (runExtractor 10 "b.py" fileB).map
        (fun st => st.edges.map (fun ed => (ed.etype, ed.source, ed.targetD))) =
      some [("import", "b", "a"), ("call", "b", "a.f"), ("attribute", "b", "a.f")] ∧
    ("b" : String) ≠ "b.g" := by
  exact ⟨by decide, by decide⟩

/-- C1 (amended): every call or attribute edge emitted by the
extractor has as its source the FQN formed from the module name
followed by a chain of enclosing class names; function scopes are
never reflected in edge sources, because the extractor has no
visit_FunctionDef and hence never pushes a function onto its scope
stack. -/
theorem C1_edge_source_scope (fuel : Nat) (path : String) (m : PyModule)
    (st2 : ExtState) (h : runExtractor fuel path m = some st2) :
    ∀ ed ∈ st2.edges, (ed.etype = "call" ∨ ed.etype = "attribute") →
      ∃ cs, ChainIn m.body cs ∧
        ed.source = joinDot (moduleFqnOfPath path :: cs) := by
  intro ed hed hca
  have h2 : visitStmtsE fuel
      { scopeStack := [moduleFqnOfPath path], aliasMap := [], edges := [], callGraph := [] }
      m.body = some st2 := h
  rcases visitStmtsE_sources fuel m.body _ st2 h2 ed hed with hm | hrec
  · simp at hm
  · rcases hrec hca with ⟨cs, hch, hsrc⟩
    exact ⟨cs, hch, by rw [hsrc]; rfl⟩

theorem C1_edge_source_scope_witness :
    runExtractor 2 "b.py" fileTiny = some tinyState ∧
    tinyCallEdge ∈ tinyState.edges ∧
    ∃ cs, ChainIn fileTiny.body cs ∧
      tinyCallEdge.source = joinDot (moduleFqnOfPath "b.py" :: cs) :=
  ⟨by decide, by decide,
    C1_edge_source_scope 2 "b.py" fileTiny tinyState (by decide) tinyCallEdge (by decide)
      (Or.inl (by decide))⟩

/-- C5 counterexample: in m.py (class C with method f holding a nested
function h), f is immediately enclosed by the class C yet lands in no
methods map (the bare name C is not a table key), and h is immediately
enclosed by the function f yet is not recorded in any children map
either: m.C keeps methods [] and children [], and m.C.f appears as a
value in no children or methods map at all. -/
theorem C5_cex :
    (runBuilder 10 "m.py" fileM).tableOf.map
        (fun t => t.map (fun p => (p.1, p.2.children, p.2.methods))) = some expectedM ∧
    ((runBuilder 10 "m.py" fileM).tableOf.map
        (fun t => t.all (fun p =>
          (p.2.children.all (fun q => q.2 != "m.C.f")) &&
          ((p.2.methods.getD []).all (fun q => q.2 != "m.C.f"))))) = some true := by
  exact ⟨by decide, by decide⟩

/-- C5 (amended): the builder classifies a definition by its scope
stack, which holds the module and the enclosing classes only (function
bodies are traversed with an unchanged stack): when the stack holds the
module alone, or its top equals the current module path, the definition
is stored in the children map of the entry keyed by the parent FQN;
otherwise the method branch runs, which changes no children map of any
entry (it updates at most the methods map of an entry keyed by the bare
class name); a nested function at module level is therefore recorded as
a child of the module, as conjunct three shows on m.py with def g
holding def h. -/
theorem C5_method_classification :
    (∀ (st : BState) (funcName funcFqn parentFqn : String) (pe : SymEntry),
      alookup st.symbolTable parentFqn = some pe →
      ¬(2 ≤ st.scopeStack.length ∧ st.stackTop ≠ st.currentModule) →
      funcBranch st funcName funcFqn parentFqn =
        .ok { st with symbolTable := aupd st.symbolTable parentFqn { pe with children := aupd pe.children funcName funcFqn } }) ∧
    (∀ (st : BState) (funcName funcFqn parentFqn : String) (st2 : BState),
      2 ≤ st.scopeStack.length → st.stackTop ≠ st.currentModule →
      funcBranch st funcName funcFqn parentFqn = .ok st2 →
      ∀ k e, alookup st2.symbolTable k = some e →
        ∃ e0, alookup st.symbolTable k = some e0 ∧ e.children = e0.children) ∧
    ((runBuilder 10 "m.py" fileM2).tableOf.map
        (fun t => t.map (fun p => (p.1, p.2.children))) =
      some [("m", [("g", "m.g"), ("h", "m.h")]), ("m.g", []), ("m.h", [])]) := by
  refine ⟨?_, ?_, by decide⟩
  · intro st funcName funcFqn parentFqn pe hpe hnot
    simp only [funcBranch, hpe]
    rw [if_neg hnot]
  · intro st funcName funcFqn parentFqn st2 hlen htop hok k e hk
    cases hpe : alookup st.symbolTable parentFqn with
    | none =>
      simp only [funcBranch, hpe] at hok
      injection hok with h2
      subst h2
      exact ⟨e, hk, rfl⟩
    | some pe =>
      simp only [funcBranch, hpe] at hok
      rw [if_pos ⟨hlen, htop⟩] at hok
      cases hce : alookup st.symbolTable st.stackTop with
      | none =>
        simp only [hce] at hok
        injection hok with h2
        subst h2
        exact ⟨e, hk, rfl⟩
      | some ce =>
        simp only [hce] at hok
        cases hm : ce.methods with
        | none =>
          simp only [hm] at hok
          exact absurd hok (by simp)
        | some ms =>
          simp only [hm] at hok
          injection hok with h2
          subst h2
          by_cases hkk : k = st.stackTop
          · subst hkk
            rw [alookup_aupd_self] at hk
            injection hk with h3
            subst h3
            exact ⟨ce, hce, rfl⟩
          · rw [alookup_aupd_ne _ _ _ _ hkk] at hk
            exact ⟨e, hk, rfl⟩

theorem C5_method_classification_witness :
    funcBranch bst5 "g" "m.g" "m" =
      .ok { bst5 with symbolTable := aupd bst5.symbolTable "m" { bentry5 with children := aupd bentry5.children "g" "m.g" } } :=
  C5_method_classification.1 bst5 "g" "m.g" "m" bentry5 (by decide) (by decide)


theorem getLastD_cons_mem : ∀ (l : List String) (x m d : String),
    ((m :: x :: l).getLastD d) ∈ x :: l := by
  intro l
  induction l with
  | nil =>
    intro x m d
    simp [List.getLastD_cons]
  | cons y rest ih =>
    intro x m d
    rw [List.getLastD_cons]
    exact List.mem_cons_of_mem _ (ih y x m)

theorem joinDot_cons_ne_empty (m : String) (names : List String) (hm : m ≠ "") :
    joinDot (m :: names) ≠ "" := by
  cases names with
  | nil => exact hm
  | cons x rest =>
    intro h
    have hd := congrArg String.data h
    simp [joinDot] at hd

theorem noDot_dotjoin (p n : String) : noDot (p ++ "." ++ n) = false := by
  simp [noDot]

theorem forall_mem_aupd {K α : Type} [BEq K] [LawfulBEq K] (P : K × α → Prop)
    (t : List (K × α)) (k : K) (v : α)
    (hinv : ∀ p ∈ t, P p) (hv : P (k, v)) : ∀ p ∈ aupd t k v, P p := by
  intro p hp
  rcases mem_aupd hp with h | h
  · rw [h]
    exact hv
  · exact hinv p h

theorem funcBranch_ok (st : BState) (fn ff pf : String) (st2 : BState)
    (h : funcBranch st fn ff pf = .ok st2) : st2.scopeStack = st.scopeStack := by
  cases hpe : alookup st.symbolTable pf with
  | none =>
    simp only [funcBranch, hpe] at h
    injection h with h2
    subst h2
    rfl
  | some pe =>
    simp only [funcBranch, hpe] at h
    by_cases hg : 2 ≤ st.scopeStack.length ∧ st.stackTop ≠ st.currentModule
    · rw [if_pos hg] at h
      cases hce : alookup st.symbolTable st.stackTop with
      | none =>
        simp only [hce] at h
        injection h with h2
        subst h2
        rfl
      | some ce =>
        simp only [hce] at h
        cases hm2 : ce.methods with
        | none =>
          simp only [hm2] at h
          exact absurd h (by simp)
        | some ms =>
          simp only [hm2] at h
          injection h with h2
          subst h2
          rfl
    · rw [if_neg hg] at h
      injection h with h2
      subst h2
      rfl

theorem visitFuncHead_stack (st : BState) (name : String) (l1 l2 : Nat)
    (params : List String) (doc : Option String) (st2 : BState)
    (h : visitFuncHead st name l1 l2 params doc = .ok st2) :
    st2.scopeStack = st.scopeStack := by
  simp only [visitFuncHead] at h
  have h2 := funcBranch_ok _ _ _ _ _ h
  exact h2

theorem visitStmtsB_stack (fuel : Nat) : ∀ (ss : List PyStmt) (st st2 : BState),
    visitStmtsB fuel st ss = .ok st2 → st2.scopeStack = st.scopeStack := by
  induction fuel with
  | zero =>
    intro ss st st2 h
    cases ss with
    | nil =>
      simp [visitStmtsB] at h
      subst h
      rfl
    | cons s rest => simp [visitStmtsB] at h
  | succ fuel ih =>
    intro ss st st2 h
    cases ss with
    | nil =>
      simp [visitStmtsB] at h
      subst h
      rfl
    | cons s rest =>
      cases s with
      | importS a b =>
        simp only [visitStmtsB] at h
        exact ih rest st st2 h
      | importFromS a b c =>
        simp only [visitStmtsB] at h
        exact ih rest st st2 h
      | exprS e =>
        simp only [visitStmtsB] at h
        exact ih rest st st2 h
      | funcDef n l1 l2 ps d body =>
        simp only [visitStmtsB] at h
        cases hv : visitFuncHead st n l1 l2 ps d with
        | keyErr =>
          simp only [hv] at h
          exact absurd h (by simp)
        | fuelOut =>
          simp only [hv] at h
          exact absurd h (by simp)
        | ok stA =>
          simp only [hv] at h
          cases hb : visitStmtsB fuel stA body with
          | keyErr =>
            simp only [hb] at h
            exact absurd h (by simp)
          | fuelOut =>
            simp only [hb] at h
            exact absurd h (by simp)
          | ok stB =>
            simp only [hb] at h
            rw [ih rest stB st2 h, ih body stA stB hb,
              visitFuncHead_stack st n l1 l2 ps d stA hv]
      | classDef n l1 l2 bases d body =>
        simp only [visitStmtsB] at h
        cases hb : visitStmtsB fuel
            { visitClassHead st n l1 l2 bases d with
              scopeStack := (visitClassHead st n l1 l2 bases d).scopeStack ++ [n] } body with
        | keyErr =>
          simp only [hb] at h
          exact absurd h (by simp)
        | fuelOut =>
          simp only [hb] at h
          exact absurd h (by simp)
        | ok stB =>
          simp only [hb] at h
          have h1 := ih body _ stB hb
          have h2 := ih rest _ st2 h
          dsimp only at h1 h2
          rw [h2, h1, List.dropLast_concat]
          rfl

theorem funcBranch_inv (st : BState) (fn ff pf : String) (st2 : BState)
    (mfqn : String) (names : List String)
    (h : funcBranch st fn ff pf = .ok st2)
    (hstk : st.scopeStack = mfqn :: names)
    (hnames : ∀ n ∈ names, noDot n = true)
    (hinv : ∀ p ∈ st.symbolTable,
      (p.2.methods = none ∨ p.2.methods = some []) ∧
      (p.2.methods ≠ none → noDot p.1 = false)) :
    ∀ p ∈ st2.symbolTable,
      (p.2.methods = none ∨ p.2.methods = some []) ∧
      (p.2.methods ≠ none → noDot p.1 = false) := by
  cases hpe : alookup st.symbolTable pf with
  | none =>
    simp only [funcBranch, hpe] at h
    injection h with h2
    subst h2
    exact hinv
  | some pe =>
    simp only [funcBranch, hpe] at h
    by_cases hg : 2 ≤ st.scopeStack.length ∧ st.stackTop ≠ st.currentModule
    · rw [if_pos hg] at h
      cases hce : alookup st.symbolTable st.stackTop with
      | none =>
        simp only [hce] at h
        injection h with h2
        subst h2
        exact hinv
      | some ce =>
        exfalso
        have hmem := mem_of_alookup hce
        have hnd : noDot st.stackTop = true := by
          have hlen := hg.1
          rw [hstk] at hlen
          cases names with
          | nil => simp at hlen
          | cons x restn =>
            have hin : st.stackTop ∈ x :: restn := by
              show st.scopeStack.getLastD "" ∈ x :: restn
              rw [hstk]
              exact getLastD_cons_mem restn x mfqn ""
            exact hnames _ hin
        cases hm2 : ce.methods with
        | none =>
          simp only [hce, hm2] at h
          exact absurd h (by simp)
        | some ms =>
          have hP := hinv _ hmem
          have hfalse : noDot st.stackTop = false :=
            hP.2 (by show ce.methods ≠ none; rw [hm2]; simp)
          rw [hnd] at hfalse
          simp at hfalse
    · rw [if_neg hg] at h
      injection h with h2
      subst h2
      refine forall_mem_aupd _ _ _ _ hinv ?_
      have hP := hinv _ (mem_of_alookup hpe)
      exact ⟨hP.1, hP.2⟩

theorem visitFuncHead_inv (st : BState) (name : String) (l1 l2 : Nat)
    (params : List String) (doc : Option String) (st2 : BState)
    (mfqn : String) (names : List String)
    (hstk : st.scopeStack = mfqn :: names)
    (hnames : ∀ n ∈ names, noDot n = true)
    (hinv : ∀ p ∈ st.symbolTable,
      (p.2.methods = none ∨ p.2.methods = some []) ∧
      (p.2.methods ≠ none → noDot p.1 = false))
    (h : visitFuncHead st name l1 l2 params doc = .ok st2) :
    ∀ p ∈ st2.symbolTable,
      (p.2.methods = none ∨ p.2.methods = some []) ∧
      (p.2.methods ≠ none → noDot p.1 = false) := by
  simp only [visitFuncHead, registerEntry] at h
  refine funcBranch_inv _ _ _ _ _ mfqn names h ?_ hnames ?_
  · exact hstk
  dsimp only
  rw [alookup_aupd_self]
  refine forall_mem_aupd _ _ _ _ ?_ ?_
  · refine forall_mem_aupd _ _ _ _ hinv ?_
    exact ⟨Or.inl rfl, fun hne => absurd rfl hne⟩
  · exact ⟨Or.inl rfl, fun hne => absurd rfl hne⟩

theorem visitClassHead_inv (st : BState) (name : String) (l1 l2 : Nat)
    (bases : List PyExpr) (doc : Option String)
    (mfqn : String) (names : List String)
    (hstk : st.scopeStack = mfqn :: names)
    (hm : mfqn ≠ "")
    (hinv : ∀ p ∈ st.symbolTable,
      (p.2.methods = none ∨ p.2.methods = some []) ∧
      (p.2.methods ≠ none → noDot p.1 = false)) :
    ∀ p ∈ (visitClassHead st name l1 l2 bases doc).symbolTable,
      (p.2.methods = none ∨ p.2.methods = some []) ∧
      (p.2.methods ≠ none → noDot p.1 = false) := by
  have hpne : (st.currentFqn == "") = false := by
    refine beq_eq_false_iff_ne.mpr ?_
    show joinDot st.scopeStack ≠ ""
    rw [hstk]
    exact joinDot_cons_ne_empty mfqn names hm
  intro p hp
  simp only [visitClassHead, registerEntry, hpne, Bool.false_eq_true, if_false,
    alookup_aupd_self] at hp
  split at hp
  · rcases mem_aupd hp with h | h
    · rw [h]
      exact ⟨Or.inr rfl, fun hx => noDot_dotjoin _ _⟩
    · rcases mem_aupd h with h2 | h2
      · rw [h2]
        exact ⟨Or.inl rfl, fun hne => absurd rfl hne⟩
      · exact hinv _ h2
  · rename_i pe heq
    rcases mem_aupd hp with h | h
    · rw [h]
      have hmem := mem_of_alookup heq
      have hPpe : (pe.methods = none ∨ pe.methods = some []) ∧
          (pe.methods ≠ none → noDot st.currentFqn = false) := by
        rcases mem_aupd hmem with h2 | h2
        · rw [Prod.mk.injEq] at h2
          refine ⟨Or.inr (by rw [h2.2]), fun hx => ?_⟩
          rw [h2.1]
          exact noDot_dotjoin _ _
        · rcases mem_aupd h2 with h3 | h3
          · rw [Prod.mk.injEq] at h3
            refine ⟨Or.inl (by rw [h3.2]), fun hne => ?_⟩
            exact absurd (by rw [h3.2]) hne
          · have hI := hinv _ h3
            exact ⟨hI.1, hI.2⟩
      exact ⟨hPpe.1, fun hne => hPpe.2 hne⟩
    · rcases mem_aupd h with h2 | h2
      · rw [h2]
        exact ⟨Or.inr rfl, fun hx => noDot_dotjoin _ _⟩
      · rcases mem_aupd h2 with h3 | h3
        · rw [h3]
          exact ⟨Or.inl rfl, fun hne => absurd rfl hne⟩
        · exact hinv _ h3

theorem visitStmtsB_inv (fuel : Nat) :
    ∀ (ss : List PyStmt) (st st2 : BState) (mfqn : String) (names : List String),
      (∀ s ∈ ss, WfStmt s) →
      st.scopeStack = mfqn :: names →
      mfqn ≠ "" →
      (∀ n ∈ names, noDot n = true) →
      (∀ p ∈ st.symbolTable,
        (p.2.methods = none ∨ p.2.methods = some []) ∧
        (p.2.methods ≠ none → noDot p.1 = false)) →
      visitStmtsB fuel st ss = .ok st2 →
      ∀ p ∈ st2.symbolTable,
        (p.2.methods = none ∨ p.2.methods = some []) ∧
        (p.2.methods ≠ none → noDot p.1 = false) := by
  induction fuel with
  | zero =>
    intro ss st st2 mfqn names hwf hstk hm hnames hinv h
    cases ss with
    | nil =>
      simp [visitStmtsB] at h
      subst h
      exact hinv
    | cons s rest => simp [visitStmtsB] at h
  | succ fuel ih =>
    intro ss st st2 mfqn names hwf hstk hm hnames hinv h
    cases ss with
    | nil =>
      simp [visitStmtsB] at h
      subst h
      exact hinv
    | cons s rest =>
      have hwfrest : ∀ s2 ∈ rest, WfStmt s2 :=
        fun s2 hs2 => hwf s2 (List.mem_cons_of_mem _ hs2)
      cases s with
      | importS a b =>
        simp only [visitStmtsB] at h
        exact ih rest st st2 mfqn names hwfrest hstk hm hnames hinv h
      | importFromS a b c =>
        simp only [visitStmtsB] at h
        exact ih rest st st2 mfqn names hwfrest hstk hm hnames hinv h
      | exprS e =>
        simp only [visitStmtsB] at h
        exact ih rest st st2 mfqn names hwfrest hstk hm hnames hinv h
      | funcDef n l1 l2 ps d body =>
        simp only [visitStmtsB] at h
        cases hv : visitFuncHead st n l1 l2 ps d with
        | keyErr =>
          simp only [hv] at h
          exact absurd h (by simp)
        | fuelOut =>
          simp only [hv] at h
          exact absurd h (by simp)
        | ok stA =>
          simp only [hv] at h
          have hinvA := visitFuncHead_inv st n l1 l2 ps d stA mfqn names hstk hnames hinv hv
          have hstkA : stA.scopeStack = mfqn :: names := by
            rw [visitFuncHead_stack st n l1 l2 ps d stA hv, hstk]
          cases hb : visitStmtsB fuel stA body with
          | keyErr =>
            simp only [hb] at h
            exact absurd h (by simp)
          | fuelOut =>
            simp only [hb] at h
            exact absurd h (by simp)
          | ok stB =>
            simp only [hb] at h
            have hwfbody : ∀ s2 ∈ body, WfStmt s2 := by
              have hw := hwf _ (List.mem_cons_self _ _)
              cases hw with
              | funcDef h1 h2 h3 => exact h3
            have hinvB := ih body stA stB mfqn names hwfbody hstkA hm hnames hinvA hb
            have hstkB : stB.scopeStack = mfqn :: names := by
              rw [visitStmtsB_stack fuel body stA stB hb, hstkA]
            exact ih rest stB st2 mfqn names hwfrest hstkB hm hnames hinvB h
      | classDef n l1 l2 bases d body =>
        simp only [visitStmtsB] at h
        have hwfthis := hwf _ (List.mem_cons_self _ _)
        have hn_nodot : noDot n = true := by
          cases hwfthis with
          | classDef h1 h2 h3 => exact h2
        have hwfbody : ∀ s2 ∈ body, WfStmt s2 := by
          cases hwfthis with
          | classDef h1 h2 h3 => exact h3
        have hinvC := visitClassHead_inv st n l1 l2 bases d mfqn names hstk hm hinv
        cases hb : visitStmtsB fuel
            { visitClassHead st n l1 l2 bases d with
              scopeStack := (visitClassHead st n l1 l2 bases d).scopeStack ++ [n] } body with
        | keyErr =>
          simp only [hb] at h
          exact absurd h (by simp)
        | fuelOut =>
          simp only [hb] at h
          exact absurd h (by simp)
        | ok stB =>
          simp only [hb] at h
          have hvch : (visitClassHead st n l1 l2 bases d).scopeStack = st.scopeStack := rfl
          have hstkpush : ({ visitClassHead st n l1 l2 bases d with
              scopeStack := (visitClassHead st n l1 l2 bases d).scopeStack ++ [n] } : BState).scopeStack
              = mfqn :: (names ++ [n]) := by
            dsimp only
            rw [hvch, hstk]
            rfl
          have hnames2 : ∀ x ∈ names ++ [n], noDot x = true := by
            intro x hx
            rcases List.mem_append.mp hx with h2 | h2
            · exact hnames x h2
            · rw [List.mem_singleton.mp h2]
              exact hn_nodot
          have hinvB := ih body _ stB mfqn (names ++ [n]) hwfbody hstkpush hm hnames2 hinvC hb
          have hstkB : stB.scopeStack = mfqn :: (names ++ [n]) := by
            rw [visitStmtsB_stack fuel body _ stB hb]
            exact hstkpush
          have hstkdrop : ({ stB with scopeStack := stB.scopeStack.dropLast } : BState).scopeStack
              = mfqn :: names := by
            dsimp only
            rw [hstkB, show mfqn :: (names ++ [n]) = (mfqn :: names) ++ [n] from rfl,
              List.dropLast_concat]
          exact ih rest _ st2 mfqn names hwfrest hstkdrop hm hnames hinvB h

/-- C10 counterexample: for a file named ".py" the module FQN is the
empty string, a top-level class C is keyed by its bare name, and the
function f defined inside the nested class .B.C is then recorded in
the methods map of the unrelated top-level class C, although no module
FQN coincides with the bare name C. -/
theorem C10_cex :
    (runBuilder 10 ".py" fileDotPy).tableOf.map
        (fun t => t.map (fun p => (p.1, p.2.kind, p.2.methods))) = some expectedDot ∧
    moduleFqnOfPath ".py" = "" ∧
    ("" : String) ≠ "C" := by
  exact ⟨by decide, by decide, by decide⟩

/-- C10 (amended): the method branch of visit_FunctionDef changes the
methods map of an entry only when that entry is keyed by the bare
class name scope_stack[-1], which must itself be a key of the
FQN-keyed symbol table (conjunct one); and over any single file whose
module FQN is non-empty, a successful phase-1 traversal leaves every
methods map absent or empty, because bare class names never coincide
with any stored FQN there (conjunct two).  The original consequence
fails only when the module FQN is the empty string, where top-level
definitions are keyed by their bare names. -/
theorem C10_methods_guard :
    (∀ (st : BState) (fn ff pf : String) (st2 : BState) (k : String) (e e0 : SymEntry),
      funcBranch st fn ff pf = .ok st2 →
      alookup st2.symbolTable k = some e →
      alookup st.symbolTable k = some e0 →
      e.methods ≠ e0.methods →
      k = st.stackTop ∧ ∃ ce, alookup st.symbolTable st.stackTop = some ce) ∧
    (∀ (fuel : Nat) (path : String) (m : PyModule) (st2 : BState),
      (∀ s ∈ m.body, WfStmt s) →
      moduleFqnOfPath path ≠ "" →
      runBuilder fuel path m = .ok st2 →
      ∀ p ∈ st2.symbolTable, p.2.methods = none ∨ p.2.methods = some []) := by
  constructor
  · intro st fn ff pf st2 k e e0 h hk hk0 hne
    cases hpe : alookup st.symbolTable pf with
    | none =>
      simp only [funcBranch, hpe] at h
      injection h with h2
      subst h2
      rw [hk] at hk0
      injection hk0 with h3
      exact absurd (congrArg SymEntry.methods h3) hne
    | some pe =>
      simp only [funcBranch, hpe] at h
      by_cases hg : 2 ≤ st.scopeStack.length ∧ st.stackTop ≠ st.currentModule
      · rw [if_pos hg] at h
        cases hce : alookup st.symbolTable st.stackTop with
        | none =>
          simp only [hce] at h
          injection h with h2
          subst h2
          rw [hk] at hk0
          injection hk0 with h3
          exact absurd (congrArg SymEntry.methods h3) hne
        | some ce =>
          simp only [hce] at h
          cases hm2 : ce.methods with
          | none =>
            simp only [hm2] at h
            exact absurd h (by simp)
          | some ms =>
            simp only [hm2] at h
            injection h with h2
            subst h2
            by_cases hkk : k = st.stackTop
            · exact ⟨hkk, ce, rfl⟩
            · dsimp only at hk
              rw [alookup_aupd_ne _ _ _ _ hkk] at hk
              rw [hk] at hk0
              injection hk0 with h3
              exact absurd (congrArg SymEntry.methods h3) hne
      · rw [if_neg hg] at h
        injection h with h2
        subst h2
        dsimp only at hk
        by_cases hkk : k = pf
        · subst hkk
          rw [alookup_aupd_self] at hk
          injection hk with h4
          rw [hpe] at hk0
          injection hk0 with h5
          refine absurd ?_ hne
          rw [← h4]
          show pe.methods = e0.methods
          rw [h5]
        · rw [alookup_aupd_ne _ _ _ _ hkk] at hk
          rw [hk] at hk0
          injection hk0 with h3
          exact absurd (congrArg SymEntry.methods h3) hne
  · intro fuel path m st2 hwf hm h
    have h2 : visitStmtsB fuel
        { symbolTable := (registerEntry [] "module" (moduleFqnOfPath path) "" (1, 1) m.doc path).2,
          scopeStack := [moduleFqnOfPath path], currentModule := path } m.body = .ok st2 := h
    have hinv0 : ∀ p ∈ (registerEntry [] "module" (moduleFqnOfPath path) "" (1, 1) m.doc path).2,
        (p.2.methods = none ∨ p.2.methods = some []) ∧
        (p.2.methods ≠ none → noDot p.1 = false) := by
      intro p hp
      rcases mem_aupd hp with hq | hq
      · rw [hq]
        exact ⟨Or.inl rfl, fun hne => absurd rfl hne⟩
      · simp at hq
    have hall := visitStmtsB_inv fuel m.body
      { symbolTable := (registerEntry [] "module" (moduleFqnOfPath path) "" (1, 1) m.doc path).2,
        scopeStack := [moduleFqnOfPath path], currentModule := path }
      st2 (moduleFqnOfPath path) [] hwf rfl hm (by simp) hinv0 h2
    intro p hp
    exact (hall p hp).1

theorem C10_methods_guard_witness :
    (∀ s ∈ fileM.body, WfStmt s) ∧ moduleFqnOfPath "m.py" ≠ "" ∧
    ∃ st2, runBuilder 10 "m.py" fileM = .ok st2 ∧
      ∀ p ∈ st2.symbolTable, p.2.methods = none ∨ p.2.methods = some [] := by
  have hwf : ∀ s ∈ fileM.body, WfStmt s := by
    intro s hs
    simp [fileM] at hs
    subst hs
    refine WfStmt.classDef (by decide) (by decide) ?_
    intro s2 hs2
    simp at hs2
    subst hs2
    refine WfStmt.funcDef (by decide) (by decide) ?_
    intro s3 hs3
    simp at hs3
    subst hs3
    exact WfStmt.funcDef (by decide) (by decide) (fun s4 hs4 => absurd hs4 (by simp))
  refine ⟨hwf, by decide, ?_⟩
  cases hrb : runBuilder 10 "m.py" fileM with
  | ok st2 => exact ⟨st2, rfl, C10_methods_guard.2 10 "m.py" fileM st2 hwf (by decide) hrb⟩
  | keyErr => exact absurd hrb (by decide)
  | fuelOut => exact absurd hrb (by decide)


theorem phase1_foldl_table (fuel : Nat) : ∀ (files : List FileInput) (acc : Phase1Out),
    (files.foldl
      (fun acc f =>
        match f.parsed with
        | none =>
          { acc with diagnostics := acc.diagnostics ++ ["Error processing " ++ f.path] }
        | some m =>
          match runBuilder fuel f.path m with
          | .ok bs => { acc with symbolTable := mergeTables acc.symbolTable bs.symbolTable }
          | _ =>
            { acc with diagnostics := acc.diagnostics ++ ["Error processing " ++ f.path] })
      acc).symbolTable =
    files.foldl
      (fun t f =>
        match f.parsed with
        | none => t
        | some m =>
          match runBuilder fuel f.path m with
          | .ok bs => mergeTables t bs.symbolTable
          | _ => t)
      acc.symbolTable := by
  intro files
  induction files with
  | nil => intro acc; rfl
  | cons f rest ih =>
    intro acc
    simp only [List.foldl_cons]
    cases hp : f.parsed with
    | none =>
      simp only [hp]
      exact ih _
    | some m =>
      simp only [hp]
      cases hr : runBuilder fuel f.path m with
      | ok bs =>
        simp only [hr]
        exact ih _
      | keyErr =>
        simp only [hr]
        exact ih _
      | fuelOut =>
        simp only [hr]
        exact ih _

theorem phase1_table_filter (fuel : Nat) : ∀ (files : List FileInput)
    (t : List (String × SymEntry)),
    files.foldl
      (fun t f =>
        match f.parsed with
        | none => t
        | some m =>
          match runBuilder fuel f.path m with
          | .ok bs => mergeTables t bs.symbolTable
          | _ => t)
      t =
    (files.filter (phase1Ok fuel)).foldl
      (fun t f =>
        match f.parsed with
        | none => t
        | some m =>
          match runBuilder fuel f.path m with
          | .ok bs => mergeTables t bs.symbolTable
          | _ => t)
      t := by
  intro files
  induction files with
  | nil => intro t; rfl
  | cons f rest ih =>
    intro t
    cases hok : phase1Ok fuel f with
    | true =>
      simp only [List.filter_cons, hok, if_true, List.foldl_cons]
      exact ih _
    | false =>
      simp only [List.filter_cons, hok, List.foldl_cons]
      have hstep : (match f.parsed with
          | none => t
          | some m =>
            match runBuilder fuel f.path m with
            | .ok bs => mergeTables t bs.symbolTable
            | _ => t) = t := by
        cases hp : f.parsed with
        | none => rfl
        | some m =>
          cases hr : runBuilder fuel f.path m with
          | ok bs =>
            simp only [phase1Ok, hp, hr] at hok
            exact absurd hok (by simp)
          | keyErr => simp only [hr]
          | fuelOut => simp only [hr]
      rw [hstep]
      exact ih t

theorem phase1_diag_mono (fuel : Nat) : ∀ (files : List FileInput) (acc : Phase1Out)
    (d : String), d ∈ acc.diagnostics →
    d ∈ (files.foldl
      (fun acc f =>
        match f.parsed with
        | none =>
          { acc with diagnostics := acc.diagnostics ++ ["Error processing " ++ f.path] }
        | some m =>
          match runBuilder fuel f.path m with
          | .ok bs => { acc with symbolTable := mergeTables acc.symbolTable bs.symbolTable }
          | _ =>
            { acc with diagnostics := acc.diagnostics ++ ["Error processing " ++ f.path] })
      acc).diagnostics := by
  intro files
  induction files with
  | nil => intro acc d hd; exact hd
  | cons f rest ih =>
    intro acc d hd
    simp only [List.foldl_cons]
    cases hp : f.parsed with
    | none =>
      simp only [hp]
      exact ih _ d (List.mem_append_left _ hd)
    | some m =>
      simp only [hp]
      cases hr : runBuilder fuel f.path m with
      | ok bs =>
        simp only [hr]
        exact ih _ d hd
      | keyErr =>
        simp only [hr]
        exact ih _ d (List.mem_append_left _ hd)
      | fuelOut =>
        simp only [hr]
        exact ih _ d (List.mem_append_left _ hd)

theorem phase1_diag_mem (fuel : Nat) : ∀ (files : List FileInput) (acc : Phase1Out)
    (f : FileInput), f ∈ files → phase1Ok fuel f = false →
    ("Error processing " ++ f.path) ∈ (files.foldl
      (fun acc f =>
        match f.parsed with
        | none =>
          { acc with diagnostics := acc.diagnostics ++ ["Error processing " ++ f.path] }
        | some m =>
          match runBuilder fuel f.path m with
          | .ok bs => { acc with symbolTable := mergeTables acc.symbolTable bs.symbolTable }
          | _ =>
            { acc with diagnostics := acc.diagnostics ++ ["Error processing " ++ f.path] })
      acc).diagnostics := by
  intro files
  induction files with
  | nil => intro acc f hf; simp at hf
  | cons g rest ih =>
    intro acc f hf hok
    simp only [List.foldl_cons]
    rcases List.mem_cons.mp hf with hfg | hfr
    · subst hfg
      cases hp : f.parsed with
      | none =>
        simp only [hp]
        refine phase1_diag_mono fuel rest _ _ ?_
        exact List.mem_append_right _ (List.mem_singleton.mpr rfl)
      | some m =>
        simp only [hp]
        cases hr : runBuilder fuel f.path m with
        | ok bs =>
          simp only [phase1Ok, hp, hr] at hok
          exact absurd hok (by simp)
        | keyErr =>
          simp only [hr]
          refine phase1_diag_mono fuel rest _ _ ?_
          exact List.mem_append_right _ (List.mem_singleton.mpr rfl)
        | fuelOut =>
          simp only [hr]
          refine phase1_diag_mono fuel rest _ _ ?_
          exact List.mem_append_right _ (List.mem_singleton.mpr rfl)
    · exact ih _ f hfr hok

theorem phase2_foldl_edges (fuel : Nat) : ∀ (files : List FileInput) (acc : Phase2Out),
    (files.foldl
      (fun acc f =>
        match f.parsed with
        | none =>
          { acc with diagnostics :=
              acc.diagnostics ++ ["Error extracting integration from " ++ f.path] }
        | some m =>
          match runExtractor fuel f.path m with
          | some es => { acc with edges := acc.edges ++ es.edges }
          | none =>
            { acc with diagnostics :=
                acc.diagnostics ++ ["Error extracting integration from " ++ f.path] })
      acc).edges =
    files.foldl
      (fun es f =>
        match f.parsed with
        | none => es
        | some m =>
          match runExtractor fuel f.path m with
          | some ex => es ++ ex.edges
          | none => es)
      acc.edges := by
  intro files
  induction files with
  | nil => intro acc; rfl
  | cons f rest ih =>
    intro acc
    simp only [List.foldl_cons]
    cases hp : f.parsed with
    | none =>
      simp only [hp]
      exact ih _
    | some m =>
      simp only [hp]
      cases hr : runExtractor fuel f.path m with
      | some ex =>
        simp only [hr]
        exact ih _
      | none =>
        simp only [hr]
        exact ih _

theorem phase2_edges_filter (fuel : Nat) : ∀ (files : List FileInput) (es0 : List Edge),
    files.foldl
      (fun es f =>
        match f.parsed with
        | none => es
        | some m =>
          match runExtractor fuel f.path m with
          | some ex => es ++ ex.edges
          | none => es)
      es0 =
    (files.filter (phase2Ok fuel)).foldl
      (fun es f =>
        match f.parsed with
        | none => es
        | some m =>
          match runExtractor fuel f.path m with
          | some ex => es ++ ex.edges
          | none => es)
      es0 := by
  intro files
  induction files with
  | nil => intro es0; rfl
  | cons f rest ih =>
    intro es0
    cases hok : phase2Ok fuel f with
    | true =>
      simp only [List.filter_cons, hok, if_true, List.foldl_cons]
      exact ih _
    | false =>
      simp only [List.filter_cons, hok, List.foldl_cons]
      have hstep : (match f.parsed with
          | none => es0
          | some m =>
            match runExtractor fuel f.path m with
            | some ex => es0 ++ ex.edges
            | none => es0) = es0 := by
        cases hp : f.parsed with
        | none => rfl
        | some m =>
          cases hr : runExtractor fuel f.path m with
          | some ex =>
            simp only [phase2Ok, hp, hr] at hok
            exact absurd hok (by simp)
          | none => simp only [hr]
      rw [hstep]
      exact ih es0

theorem phase2_diag_mono (fuel : Nat) : ∀ (files : List FileInput) (acc : Phase2Out)
    (d : String), d ∈ acc.diagnostics →
    d ∈ (files.foldl
      (fun acc f =>
        match f.parsed with
        | none =>
          { acc with diagnostics :=
              acc.diagnostics ++ ["Error extracting integration from " ++ f.path] }
        | some m =>
          match runExtractor fuel f.path m with
          | some es => { acc with edges := acc.edges ++ es.edges }
          | none =>
            { acc with diagnostics :=
                acc.diagnostics ++ ["Error extracting integration from " ++ f.path] })
      acc).diagnostics := by
  intro files
  induction files with
  | nil => intro acc d hd; exact hd
  | cons f rest ih =>
    intro acc d hd
    simp only [List.foldl_cons]
    cases hp : f.parsed with
    | none =>
      simp only [hp]
      exact ih _ d (List.mem_append_left _ hd)
    | some m =>
      simp only [hp]
      cases hr : runExtractor fuel f.path m with
      | some ex =>
        simp only [hr]
        exact ih _ d hd
      | none =>
        simp only [hr]
        exact ih _ d (List.mem_append_left _ hd)

theorem phase2_diag_mem (fuel : Nat) : ∀ (files : List FileInput) (acc : Phase2Out)
    (f : FileInput), f ∈ files → phase2Ok fuel f = false →
    ("Error extracting integration from " ++ f.path) ∈ (files.foldl
      (fun acc f =>
        match f.parsed with
        | none =>
          { acc with diagnostics :=
              acc.diagnostics ++ ["Error extracting integration from " ++ f.path] }
        | some m =>
          match runExtractor fuel f.path m with
          | some es => { acc with edges := acc.edges ++ es.edges }
          | none =>
            { acc with diagnostics :=
                acc.diagnostics ++ ["Error extracting integration from " ++ f.path] })
      acc).diagnostics := by
  intro files
  induction files with
  | nil => intro acc f hf; simp at hf
  | cons g rest ih =>
    intro acc f hf hok
    simp only [List.foldl_cons]
    rcases List.mem_cons.mp hf with hfg | hfr
    · subst hfg
      cases hp : f.parsed with
      | none =>
        simp only [hp]
        refine phase2_diag_mono fuel rest _ _ ?_
        exact List.mem_append_right _ (List.mem_singleton.mpr rfl)
      | some m =>
        simp only [hp]
        cases hr : runExtractor fuel f.path m with
        | some ex =>
          simp only [phase2Ok, hp, hr] at hok
          exact absurd hok (by simp)
        | none =>
          simp only [hr]
          refine phase2_diag_mono fuel rest _ _ ?_
          exact List.mem_append_right _ (List.mem_singleton.mpr rfl)
    · exact ih _ f hfr hok

/-- C9 counterexample: C.py parses but fails phase-1 traversal (the
KeyError of the method branch), so it contributes no symbol-table
entries and raises a diagnostic, yet phase 2 re-parses the file
independently and its two edges are still extracted: the failing file
is not excluded from the edge set. -/
theorem C9_cex :
    phase1 100 batchC = ⟨[], ["Error processing C.py"]⟩ ∧
    (phase2 100 batchC).edges.length = 2 := by
  exact ⟨by decide, by decide⟩

/-- C9 (amended): fault isolation holds per phase.  A file failing
phase 1 contributes no symbol-table entries (the table equals the one
computed from the passing files alone) and raises a phase-1
diagnostic; a file failing phase 2 contributes no edges and raises a
phase-2 diagnostic; both folds always run over every remaining file.
Because phase 2 re-parses independently of phase 1, a file that parses
but fails phase-1 traversal still contributes edges. -/
theorem C9_fault_isolation :
    (∀ (fuel : Nat) (files : List FileInput),
      (phase1 fuel files).symbolTable =
        (phase1 fuel (files.filter (phase1Ok fuel))).symbolTable) ∧
    (∀ (fuel : Nat) (files : List FileInput) (f : FileInput),
      f ∈ files → phase1Ok fuel f = false →
      ("Error processing " ++ f.path) ∈ (phase1 fuel files).diagnostics) ∧
    (∀ (fuel : Nat) (files : List FileInput),
      (phase2 fuel files).edges =
        (phase2 fuel (files.filter (phase2Ok fuel))).edges) ∧
    (∀ (fuel : Nat) (files : List FileInput) (f : FileInput),
      f ∈ files → phase2Ok fuel f = false →
      ("Error extracting integration from " ++ f.path) ∈ (phase2 fuel files).diagnostics) := by
  refine ⟨?_, ?_, ?_, ?_⟩
  · intro fuel files
    simp only [phase1]
    rw [phase1_foldl_table, phase1_foldl_table]
    exact phase1_table_filter fuel files _
  · intro fuel files f hf hok
    simp only [phase1]
    exact phase1_diag_mem fuel files _ f hf hok
  · intro fuel files
    simp only [phase2]
    rw [phase2_foldl_edges, phase2_foldl_edges]
    exact phase2_edges_filter fuel files _
  · intro fuel files f hf hok
    simp only [phase2]
    exact phase2_diag_mem fuel files _ f hf hok

theorem C9_fault_isolation_witness :
    (⟨"C.py", some fileCpy⟩ : FileInput) ∈ batchC ∧
    phase1Ok 100 ⟨"C.py", some fileCpy⟩ = false ∧
    ("Error processing " ++ (⟨"C.py", some fileCpy⟩ : FileInput).path) ∈
      (phase1 100 batchC).diagnostics :=
  ⟨List.mem_singleton.mpr rfl, by decide,
    C9_fault_isolation.2.1 100 batchC ⟨"C.py", some fileCpy⟩ (List.mem_singleton.mpr rfl) (by decide)⟩
